import Mathlib

/-!
Verification development for the `molecular-canvas` structural diagram
editor.  The Rust sources are shallowly embedded in Lean:

* machine floats (`f32`) are modelled by exact rationals `ℚ` (and by `ℝ`
  where the source takes a square root);
* `FxHashMap` collections are modelled by association lists; the iteration
  order of a hash map is arbitrary, and every property proved below is
  insensitive to the order chosen;
* `uuid`-based identifiers are modelled by `ℕ`, since only equality of
  identifiers is ever used;
* functions returning `anyhow::Result` are modelled with `Except`.

Each embedded definition carries a pointer to the Rust item it models.
-/

namespace MolCanvas

/-! ### Geometry (`src/bounds.rs`)

`Bounds` is a rectangle with an offset, a size and a rotation angle.  The
rotation angle is only ever used through its rotation matrix, so it is
modelled by the pair `(cos θ, sin θ)`; an axis-aligned box has rotation
`(1, 0)` (`Angle::zero`). -/

/-- A 2-d point / vector with exact rational coordinates (models `f32` pairs:
`Point`, `Vector`). -/
structure Vec2 where
  x : ℚ
  y : ℚ
deriving DecidableEq, Repr

instance : Inhabited Vec2 := ⟨⟨0, 0⟩⟩

/-- `iced::Size`: a width/height pair. -/
structure Size2 where
  w : ℚ
  h : ℚ
deriving DecidableEq, Repr

/-- A rotation angle, represented by its cosine and sine (the source stores
an `Angle` but only ever uses the derived rotation matrix). -/
structure Rot where
  c : ℚ
  s : ℚ
deriving DecidableEq, Repr

/-- `Bounds` (bounds.rs lines 16-21): rectangular bounding box with
arbitrary rotation. -/
structure Bounds where
  offset : Vec2
  size : Size2
  angle : Rot
deriving DecidableEq, Repr

namespace Bounds

/-- `Bounds::transform` applied to a point: rotate by `angle`, then
translate by `offset` (bounds.rs lines 32-34). -/
def transformPoint (b : Bounds) (p : Vec2) : Vec2 :=
  ⟨b.angle.c * p.x - b.angle.s * p.y + b.offset.x,
   b.angle.s * p.x + b.angle.c * p.y + b.offset.y⟩

/-- `Bounds::points` (bounds.rs lines 41-52): the four world-space corners,
in the source's order. -/
def points (b : Bounds) : List Vec2 :=
  [Vec2.mk 0 0, Vec2.mk b.size.w 0, Vec2.mk b.size.w b.size.h,
   Vec2.mk 0 b.size.h].map b.transformPoint

/-- `impl From<Rectangle> for Bounds` (bounds.rs lines 152-160): an
axis-aligned box, angle zero. -/
def fromRect (pos : Vec2) (sz : Size2) : Bounds :=
  ⟨pos, sz, ⟨1, 0⟩⟩

/-- The `expand_bounds` closure inside `Bounds::union` (bounds.rs lines
84-96).  Note the `else if` chains: a point that is simultaneously an
x-minimum and a y-minimum updates only the tracked x-minimum. -/
def expandBounds : Vec2 × Vec2 → Vec2 → Vec2 × Vec2 :=
  fun (mc, xc) p =>
    let mc' :=
      if p.x < mc.x then { mc with x := p.x }
      else if p.y < mc.y then { mc with y := p.y }
      else mc
    let xc' :=
      if p.x > xc.x then { xc with x := p.x }
      else if p.y > xc.y then { xc with y := p.y }
      else xc
    (mc', xc')

/-- `Bounds::union` (bounds.rs lines 77-108).  The first of the eight
corner points initialises both tracked corners (`points.next().unwrap()`);
the remaining seven are folded through `expand_bounds`. -/
def union (b₁ b₂ : Bounds) : Bounds :=
  let pts := b₁.points ++ b₂.points
  let fst := pts.headI
  let mm := (pts.drop 1).foldl expandBounds (fst, fst)
  fromRect mm.1 ⟨mm.2.x - mm.1.x, mm.2.y - mm.1.y⟩

end Bounds

/-- The axis-aligned bounding rectangle of a list of points, taking the
component-wise minimum and maximum independently per axis.  This is the
behaviour claimed by the specification for `Bounds::union`; it is compared
against the embedded `Bounds.union` above. -/
def aabbOfPoints (pts : List Vec2) : Bounds :=
  let fst := pts.headI
  let mm := (pts.drop 1).foldl
    (fun (mc, xc) (p : Vec2) =>
      ((⟨min mc.x p.x, min mc.y p.y⟩ : Vec2), (⟨max xc.x p.x, max xc.y p.y⟩ : Vec2)))
    (fst, fst)
  Bounds.fromRect mm.1 ⟨mm.2.x - mm.1.x, mm.2.y - mm.1.y⟩

/-- An axis-aligned unit square at the origin (input for the `union`
counterexamples). -/
def cexA3 : Bounds := Bounds.fromRect ⟨0, 0⟩ ⟨1, 1⟩

/-- A 5×5 box rotated by the 3-4-5 angle (cos = 3/5, sin = 4/5) and offset
to (-10, -10); its corners are (-10,-10), (-7,-6), (-11,-3), (-14,-7). -/
def cexB3 : Bounds := ⟨⟨-10, -10⟩, ⟨5, 5⟩, ⟨3/5, 4/5⟩⟩

/-- A 5×5 box at the origin rotated by the 3-4-5 angle; its corners are
(0,0), (3,4), (-1,7), (-4,3). -/
def cexA4 : Bounds := ⟨⟨0, 0⟩, ⟨5, 5⟩, ⟨3/5, 4/5⟩⟩

/-! ### Viewport and zoom (`src/canvas.rs`, `src/canvas/event_handler.rs`) -/

/-- `MolCanvas::MIN_SCALING` (canvas.rs line 68). -/
def MIN_SCALING : ℚ := 1/10

/-- `MolCanvas::MAX_SCALING` (canvas.rs line 69). -/
def MAX_SCALING : ℚ := 5

/-- Rust's `f32::clamp(lo, hi)`. -/
def clampQ (x lo hi : ℚ) : ℚ := if x < lo then lo else if x > hi then hi else x

/-- The origin of `MolCanvas::visible_region` (canvas.rs lines 231-243):
`(-translation - size / scaling / 2)`. -/
def visibleRegionOrigin (scaling : ℚ) (translation : Vec2) (size : Size2) : Vec2 :=
  ⟨-translation.x - size.w / scaling / 2, -translation.y - size.h / scaling / 2⟩

/-- `MolCanvas::project` (canvas.rs lines 245-252): maps a cursor position
(relative to the canvas) to a world position. -/
def project (scaling : ℚ) (translation : Vec2) (size : Size2) (position : Vec2) : Vec2 :=
  ⟨position.x / scaling + (visibleRegionOrigin scaling translation size).x,
   position.y / scaling + (visibleRegionOrigin scaling translation size).y⟩

/-- The new scaling computed by `handle_scrolling` (event_handler.rs lines
67-68): multiply by `1 + y/30` and clamp to `[0.1, 5.0]`. -/
def newScalingOf (y scaling : ℚ) : ℚ :=
  clampQ (scaling * (1 + y / 30)) MIN_SCALING MAX_SCALING

/-- The translation recomputed by `handle_scrolling` (event_handler.rs
lines 70-83), given the cursor's offset `c` from the canvas centre:
`translation - c * (new - old) / old²`. -/
def newTranslationOf (y scaling : ℚ) (translation c : Vec2) : Vec2 :=
  ⟨translation.x - c.x * (newScalingOf y scaling - scaling) / (scaling * scaling),
   translation.y - c.y * (newScalingOf y scaling - scaling) / (scaling * scaling)⟩

/-- `handle_scrolling` (event_handler.rs lines 54-91).  `cursorToCenter`
is `cursor.position_from(bounds.center())` (`none` when the cursor is
unavailable).  Returns `none` when no `Scaled` message is produced,
otherwise the new scaling and the optionally recomputed translation. -/
def handle_scrolling (y scaling : ℚ) (translation : Vec2)
    (cursorToCenter : Option Vec2) : Option (ℚ × Option Vec2) :=
  if (y < 0 ∧ scaling > MIN_SCALING) ∨ (y > 0 ∧ scaling < MAX_SCALING) then
    some (newScalingOf y scaling,
      cursorToCenter.map (newTranslationOf y scaling translation))
  else
    none

/-! ### Fixed-length bond endpoint (`src/molecule/bond.rs`) -/

/-- `Bond::fixed_length` (bond.rs lines 95-103): place a point at `length`
from `start` along `dir`; when the magnitude of `dir` is at most 0.0001,
fall back to a horizontal offset.  Modelled over `ℝ` because the source
takes a square root. -/
noncomputable def fixed_length (start dir : ℝ × ℝ) (length : ℝ) : ℝ × ℝ :=
  if Real.sqrt (dir.1 ^ 2 + dir.2 ^ 2) > 1/10000 then
    (start.1 + dir.1 * (length / Real.sqrt (dir.1 ^ 2 + dir.2 ^ 2)),
     start.2 + dir.2 * (length / Real.sqrt (dir.1 ^ 2 + dir.2 ^ 2)))
  else
    (start.1 + length, start.2 + 0)

/-! ### Graph model (`src/molecule.rs`, `src/molecule/{atom,bond}.rs`)

Identifiers (`uuid`-backed `AtomId`, `BondId`, `MoleculeId`) are modelled
by naturals, since only equality of identifiers is used; `FxHashMap` is
modelled by an association list.  The cached `local_bounds` field and its
`compute_bounds` recomputations are omitted from the model: the cache is
computed from rendered glyph geometry (`Label`, external presentation
data), `compute_bounds` never fails, and no cached bound affects any
property proved here. -/

abbrev AtomId := ℕ
abbrev BondId := ℕ
abbrev MoleculeId := ℕ

/-- `Direction` (atom.rs lines 195-202); `Right` is the `#[default]`. -/
inductive Direction
  | Up
  | Down
  | Left
  | Right
deriving DecidableEq, Repr

instance : Inhabited Direction := ⟨Direction.Right⟩

/-- `Atom` (atom.rs lines 20-24): its `Label` is modelled by the input
string and the direction (cached glyph paths and text bounds are
presentation data). -/
structure Atom where
  label : String
  position : Vec2
  direction : Direction
deriving DecidableEq, Repr

/-- `BondType` (bond.rs lines 241-247); the `u8` strength is modelled by
`ℕ`. -/
inductive BondType
  | Normal (strength : ℕ)
  | Wedge
  | Dash
  | Hydrogen
deriving DecidableEq, Repr

/-- `Bond` (bond.rs lines 23-28); the field `end'` models the Rust field
`end`, a reserved word in Lean. -/
structure Bond where
  start : AtomId
  end' : AtomId
  bondType : BondType
deriving DecidableEq, Repr

namespace Bond

/-- `Bond::change_type` (bond.rs lines 39-41). -/
def change_type (b : Bond) (t : BondType) : Bond := { b with bondType := t }

/-- `Bond::flip` (bond.rs lines 43-45). -/
def flip (b : Bond) : Bond := { b with start := b.end', end' := b.start }

/-- `Bond::atom_ids` (bond.rs lines 129-131). -/
def atomIds (b : Bond) : List AtomId := [b.start, b.end']

end Bond

/-- `molecule::Error` (error.rs), plus `OptionContext` for the errors that
`anyhow::Context` manufactures when applied to an `Option` that is
`None`. -/
inductive MolError
  | AtomCollision (id : AtomId)
  | BondCollision (id : BondId)
  | MoleculeCollision (id : MoleculeId)
  | AtomMissing (id : AtomId)
  | BondMissing (id : BondId)
  | MoleculeMissing (id : MoleculeId)
  | OptionContext (msg : String)
deriving DecidableEq, Repr

/-- Key lookup in an association list (the model of `HashMap::get`). -/
def lookupKV {α : Type} (k : ℕ) : List (ℕ × α) → Option α
  | [] => none
  | (k', v) :: rest => if k = k' then some v else lookupKV k rest

/-- Model of `HashMap::insert`: replace the value stored under `k` or
append a new entry; returns the previous value and the new map. -/
def insertKV {α : Type} (k : ℕ) (v : α) (l : List (ℕ × α)) : Option α × List (ℕ × α) :=
  match lookupKV k l with
  | some old => (some old, l.map (fun p => if p.1 = k then (k, v) else p))
  | none => (none, l ++ [(k, v)])

/-- Model of `HashMap::remove`'s effect on the map. -/
def eraseKey {α : Type} (k : ℕ) (l : List (ℕ × α)) : List (ℕ × α) :=
  l.filter (fun p => p.1 ≠ k)

/-- Bonds attached to `aid` within a bond list — the body of
`Molecule::attached_bonds` (molecule.rs lines 316-320), parameterised by
the bond map. -/
def attachedIn (bonds : List (BondId × Bond)) (aid : AtomId) : List (BondId × Bond) :=
  bonds.filter (fun p => p.2.start = aid ∨ p.2.end' = aid)

/-- All endpoint atom ids offered when the bonds attached to `aid` are
expanded (`for atom in bond.atom_ids()`, molecule.rs lines 303-310). -/
def neighborsOf (bonds : List (BondId × Bond)) (aid : AtomId) : List AtomId :=
  (attachedIn bonds aid).flatMap (fun p => p.2.atomIds)

/-- All endpoint atom ids of a bond list. -/
def bondEndpointAtoms (bonds : List (BondId × Bond)) : List AtomId :=
  bonds.flatMap (fun p => p.2.atomIds)

/-- The inner loop of `Molecule::get_connected` (molecule.rs lines
304-309): record and enqueue each offered atom that has not been seen.
The queue is FIFO: fresh atoms are appended at the back. -/
def enqueueAll : List AtomId → List AtomId × List AtomId → List AtomId × List AtomId
  | [], vq => vq
  | a :: rest, (v, q) =>
      if a ∈ v then enqueueAll rest (v, q)
      else enqueueAll rest (a :: v, q ++ [a])

/-- The queue-driven search loop of `Molecule::get_connected` (molecule.rs
lines 296-314), with explicit fuel.  The source loop runs until the
queue empties; every enqueued atom is fresh so the fuel supplied in
`Molecule.get_connected` is sufficient for the queue to drain. -/
def bfsAux (bonds : List (BondId × Bond)) :
    ℕ → List AtomId → List AtomId → List AtomId
  | 0, visited, _ => visited
  | _ + 1, visited, [] => visited
  | fuel + 1, visited, curr :: queue =>
      let vq := enqueueAll (neighborsOf bonds curr) (visited, queue)
      bfsAux bonds fuel vq.1 vq.2

/-- Proof infrastructure for the traversal's termination bound: the number
of distinct bond-endpoint atoms not yet visited. -/
def countUnseen (bonds : List (BondId × Bond)) (v : List AtomId) : ℕ :=
  ((bondEndpointAtoms bonds).dedup.filter (fun a => a ∉ v)).length

/-- One adjacency step of the bond graph: `b` is offered when the bonds
attached to `a` are expanded. -/
def AdjStep (bonds : List (BondId × Bond)) (a b : AtomId) : Prop :=
  b ∈ neighborsOf bonds a

/-- Connectivity through a bond list: the reflexive-transitive closure of
adjacency. -/
def ReachableIn (bonds : List (BondId × Bond)) : AtomId → AtomId → Prop :=
  Relation.ReflTransGen (AdjStep bonds)

/-- Right-blocking test of `update_atom_label_direction` (molecule.rs line
454).  The source tests `unit.x > 0.1` on the sqrt-normalised unit vector;
over exact arithmetic this is equivalent to
`0 < v.x ∧ v.x² + v.y² < 100·v.x²` on the raw difference vector, which
keeps the model in `ℚ`.  (For `v = 0` the source normalisation yields NaN
components whose comparisons are all false; this model blocks nothing
then as well.) -/
def blocksRight (v : Vec2) : Bool :=
  decide (0 < v.x ∧ v.x ^ 2 + v.y ^ 2 < 100 * v.x ^ 2)

/-- `unit.x < -0.1` (molecule.rs line 456), exact-arithmetic form. -/
def blocksLeft (v : Vec2) : Bool :=
  decide (v.x < 0 ∧ v.x ^ 2 + v.y ^ 2 < 100 * v.x ^ 2)

/-- `unit.y > 0.1` blocks `Down` (molecule.rs line 459), exact-arithmetic
form. -/
def blocksDown (v : Vec2) : Bool :=
  decide (0 < v.y ∧ v.x ^ 2 + v.y ^ 2 < 100 * v.y ^ 2)

/-- `unit.y < -0.1` blocks `Up` (molecule.rs line 461), exact-arithmetic
form. -/
def blocksUp (v : Vec2) : Bool :=
  decide (v.y < 0 ∧ v.x ^ 2 + v.y ^ 2 < 100 * v.y ^ 2)

/-- The blocked-set computation and preference cascade of
`update_atom_label_direction` (molecule.rs lines 451-476) as a function of
the neighbour difference vectors: `vs.any blocksRight` holds exactly when
the source inserts `Right` into `blocked_directions` (the `else if` arms
are mutually exclusive sign tests), and the cascade picks the first
unblocked direction in the order Right, Left, Up, Down, defaulting to
`Direction::default()` (= Right). -/
def labelDirection (vs : List Vec2) : Direction :=
  if ¬ vs.any blocksRight then .Right
  else if ¬ vs.any blocksLeft then .Left
  else if ¬ vs.any blocksUp then .Up
  else if ¬ vs.any blocksDown then .Down
  else default

/-- Specification-side normalised x-component of a difference vector: the
`unit_vector.x` of molecule.rs line 447, with the `f32::sqrt`
normalisation carried out over `ℝ`. -/
noncomputable def unitX (v : Vec2) : ℝ :=
  (v.x : ℝ) / Real.sqrt ((v.x : ℝ) ^ 2 + (v.y : ℝ) ^ 2)

/-- Specification-side normalised y-component of a difference vector. -/
noncomputable def unitY (v : Vec2) : ℝ :=
  (v.y : ℝ) / Real.sqrt ((v.x : ℝ) ^ 2 + (v.y : ℝ) ^ 2)

/-- The claim's wording of a blocked `Right` direction: some unit vector's
x-component exceeds 0.1. -/
def SpecBlockedRight (vs : List Vec2) : Prop := ∃ v ∈ vs, unitX v > 1 / 10

/-- The claim's wording of a blocked `Left` direction: some unit vector's
x-component is below -0.1. -/
def SpecBlockedLeft (vs : List Vec2) : Prop := ∃ v ∈ vs, unitX v < -(1 / 10)

/-- The claim's wording of a blocked `Down` direction: some unit vector's
y-component exceeds 0.1 (screen y grows downward). -/
def SpecBlockedDown (vs : List Vec2) : Prop := ∃ v ∈ vs, unitY v > 1 / 10

/-- The claim's wording of a blocked `Up` direction: some unit vector's
y-component is below -0.1. -/
def SpecBlockedUp (vs : List Vec2) : Prop := ∃ v ∈ vs, unitY v < -(1 / 10)

/-- `Molecule` (molecule.rs lines 30-36), without the cached
`local_bounds` (see the section comment). -/
structure Molecule where
  atoms : List (AtomId × Atom)
  bonds : List (BondId × Bond)
  position : Vec2
deriving DecidableEq, Repr

namespace Molecule

/-- `Molecule::new` (molecule.rs lines 39-51): a single atom at the local
origin (`AtomPosition::default()`), default direction. -/
def new (canvasPosition : Vec2) (aid : AtomId) (label : String) : Molecule :=
  { atoms := [(aid, { label := label, position := ⟨0, 0⟩, direction := default })],
    bonds := [],
    position := canvasPosition }

/-- `Molecule::attached_bonds` (molecule.rs lines 316-320). -/
def attached_bonds (m : Molecule) (aid : AtomId) : List (BondId × Bond) :=
  attachedIn m.bonds aid

/-- `Molecule::get_directly_connected` (molecule.rs lines 322-326). -/
def get_directly_connected (m : Molecule) (aid : AtomId) : List AtomId :=
  (neighborsOf m.bonds aid).filter (fun a => a ≠ aid)

/-- `Molecule::get_connected` (molecule.rs lines 296-314): the atoms
discovered by the queue-based traversal of the bond adjacency from `aid`.
(The model's `visited` list records atoms in reverse discovery order;
every property proved below is about membership only.) -/
def get_connected (m : Molecule) (aid : AtomId) : List AtomId :=
  bfsAux m.bonds (4 * m.bonds.length + 2) [aid] [aid]

/-- `Molecule::is_empty` (molecule.rs lines 384-386). -/
def is_empty (m : Molecule) : Bool := m.atoms.isEmpty

/-- `Molecule::change_bond_type` (molecule.rs lines 486-492): when the
bond id is absent the source silently returns (`let ... else return;`);
the signature carries no error. -/
def change_bond_type (m : Molecule) (bid : BondId) (t : BondType) : Molecule :=
  { m with bonds := m.bonds.map (fun p => if p.1 = bid then (p.1, p.2.change_type t) else p) }

/-- `Molecule::flip_bond` (molecule.rs lines 494-500): silent no-op on an
absent id, like `change_bond_type`. -/
def flip_bond (m : Molecule) (bid : BondId) : Molecule :=
  { m with bonds := m.bonds.map (fun p => if p.1 = bid then (p.1, p.2.flip) else p) }

/-- Looking up a list of atoms, failing on the first missing one (the
`collect::<Result<Vec<_>>>` of molecule.rs lines 437-440). -/
def lookupAtoms (m : Molecule) : List AtomId → Except MolError (List Atom)
  | [] => .ok []
  | a :: rest =>
      match lookupKV a m.atoms with
      | none => .error (.AtomMissing a)
      | some atom =>
          match lookupAtoms m rest with
          | .error e => .error e
          | .ok l => .ok (atom :: l)

/-- `Molecule::update_atom_label_direction` (molecule.rs lines 432-484):
recompute the label direction of `aid` from the difference vectors to its
directly connected atoms (see `labelDirection` for the treatment of the
sqrt normalisation). -/
def update_atom_label_direction (m : Molecule) (aid : AtomId) : Except MolError Molecule :=
  match lookupKV aid m.atoms with
  | none => .error (.AtomMissing aid)
  | some atom =>
      match m.lookupAtoms (m.get_directly_connected aid) with
      | .error e => .error e
      | .ok connected =>
          let vs := connected.map (fun c =>
            (⟨c.position.x - atom.position.x, c.position.y - atom.position.y⟩ : Vec2))
          .ok { m with atoms := m.atoms.map (fun p =>
            if p.1 = aid then (p.1, { p.2 with direction := labelDirection vs }) else p) }

/-- The `update_atom_label_direction` loops of `delete_atom` /
`delete_bond` (molecule.rs lines 202-204 and 220-222). -/
def updateDirections (m : Molecule) : List AtomId → Except MolError Molecule
  | [] => .ok m
  | a :: rest =>
      match m.update_atom_label_direction a with
      | .error e => .error e
      | .ok m' => m'.updateDirections rest

end Molecule

/-- The per-walk scan of `split_fragments`' deduplication loop
(molecule.rs lines 235-243): push each atom into the seen-set, aborting
when an atom was already seen (`continue 'outer` — atoms inserted before
the duplicate stay in the seen-set).  Returns whether the walk completed
and the updated seen-set. -/
def scanWalk : List AtomId → List AtomId → Bool × List AtomId
  | [], seen => (true, seen)
  | a :: rest, seen =>
      if a ∈ seen then (false, seen)
      else scanWalk rest (a :: seen)

/-- The deduplication loop of `split_fragments` (molecule.rs lines
233-247): keep each walk all of whose atoms were unseen, skipping empty
walks (`if !atoms.is_empty()`). -/
def collectUnique : List (List AtomId) → List AtomId → List (List AtomId) → List (List AtomId)
  | [], _, acc => acc
  | w :: ws, seen, acc =>
      match scanWalk w seen with
      | (true, seen') => collectUnique ws seen' (acc ++ if w.isEmpty then [] else [w])
      | (false, seen') => collectUnique ws seen' acc

/-- Removing the atoms of one fragment from the source molecule's atom map
(molecule.rs lines 261-269): a missing atom is an `AtomMissing` error. -/
def takeAtoms : List (AtomId × Atom) → List AtomId →
    Except MolError (List (AtomId × Atom) × List (AtomId × Atom))
  | cur, [] => .ok ([], cur)
  | cur, aid :: rest =>
      match lookupKV aid cur with
      | none => .error (.AtomMissing aid)
      | some atom =>
          match takeAtoms (eraseKey aid cur) rest with
          | .error e => .error e
          | .ok (taken, remaining) => .ok ((aid, atom) :: taken, remaining)

namespace Molecule

/-- Extraction of one detached fragment (molecule.rs lines 258-288): the
fragment's atoms are moved out of the source map, and every bond with an
endpoint among them is moved into the fragment (`bonds.retain`). -/
def extractFragment (m : Molecule) (atomSet : List AtomId) :
    Except MolError (Molecule × Molecule) :=
  match takeAtoms m.atoms atomSet with
  | .error e => .error e
  | .ok (taken, remaining) =>
      let moved := m.bonds.filter (fun p =>
        (lookupKV p.2.start taken).isSome ∨ (lookupKV p.2.end' taken).isSome)
      let kept := m.bonds.filter (fun p =>
        ¬ ((lookupKV p.2.start taken).isSome ∨ (lookupKV p.2.end' taken).isSome))
      .ok ({ m with atoms := remaining, bonds := kept },
           { atoms := taken, bonds := moved, position := m.position })

/-- The extraction loop over all fragments beyond the first (molecule.rs
lines 256-289). -/
def extractAll (m : Molecule) : List (List AtomId) → Except MolError (Molecule × List Molecule)
  | [] => .ok (m, [])
  | s :: ss =>
      match m.extractFragment s with
      | .error e => .error e
      | .ok (m', frag) =>
          match m'.extractAll ss with
          | .error e => .error e
          | .ok (m'', frags) => .ok (m'', frag :: frags)

/-- `Molecule::split_fragments` (molecule.rs lines 230-294): compute the
connected component of every touched atom, deduplicate components, and
when at least two distinct components exist extract all but the first
into fresh molecules.  (The lazy `atom_sets` iterator is consumed before
any mutation, so the eager `walks` below is equivalent; the bounds
recomputations are omitted.) -/
def split_fragments (m : Molecule) (atomIds : List AtomId) :
    Except MolError (Molecule × List Molecule) :=
  let walks := atomIds.map m.get_connected
  let uniqueSets := collectUnique walks [] []
  if uniqueSets.length < 2 then .ok (m, [])
  else m.extractAll (uniqueSets.drop 1)

/-- `Molecule::delete_atom` (molecule.rs lines 186-209): remove the atom,
collect its attached bonds and directly connected atoms, remove those
bonds, recompute the neighbours' label directions, then split. -/
def delete_atom (m : Molecule) (aid : AtomId) :
    Except MolError (Molecule × List Molecule) :=
  match lookupKV aid m.atoms with
  | none => .error (.AtomMissing aid)
  | some _ =>
      let m₁ : Molecule := { m with atoms := eraseKey aid m.atoms }
      let attached := (m₁.attached_bonds aid).map Prod.fst
      let connected := m₁.get_directly_connected aid
      let m₂ : Molecule := { m₁ with bonds := m₁.bonds.filter (fun p => p.1 ∉ attached) }
      match m₂.updateDirections connected with
      | .error e => .error e
      | .ok m₃ => m₃.split_fragments connected

/-- `Molecule::delete_bond` (molecule.rs lines 211-227): remove the bond,
recompute its endpoints' label directions, then split with the two
endpoints as touched atoms. -/
def delete_bond (m : Molecule) (bid : BondId) :
    Except MolError (Molecule × List Molecule) :=
  match lookupKV bid m.bonds with
  | none => .error (.BondMissing bid)
  | some bond =>
      let m₁ : Molecule := { m with bonds := eraseKey bid m.bonds }
      match m₁.updateDirections bond.atomIds with
      | .error e => .error e
      | .ok m₂ => m₂.split_fragments bond.atomIds

/-- Well-formedness of a molecule's maps: distinct keys (the hash-map
model invariant) and every bond endpoint resolving to a stored atom (the
§3 invariant of the specification). -/
def WF (m : Molecule) : Prop :=
  (m.atoms.map Prod.fst).Nodup ∧ (m.bonds.map Prod.fst).Nodup ∧
  ∀ p ∈ m.bonds, (lookupKV p.2.start m.atoms).isSome ∧ (lookupKV p.2.end' m.atoms).isSome

/-- The claim-side connectivity hypothesis: every two stored atoms are
joined through the bond-adjacency graph. -/
def Connected (m : Molecule) : Prop :=
  ∀ a ∈ m.atoms.map Prod.fst, ∀ b ∈ m.atoms.map Prod.fst, ReachableIn m.bonds a b

end Molecule

/-- A two-atom, one-bond molecule (atoms 0 and 1, bond 5) used as a
concrete witness input. -/
def mC1 : Molecule :=
  { atoms := [(0, { label := "C", position := ⟨0, 0⟩, direction := .Right }),
              (1, { label := "O", position := ⟨30, 0⟩, direction := .Right })],
    bonds := [(5, ⟨0, 1, .Normal 1⟩)],
    position := ⟨0, 0⟩ }

/-- A triangle molecule (atoms 0, 1, 2; bonds 10, 11, 12 forming a cycle)
used as a concrete witness input. -/
def mC5 : Molecule :=
  { atoms := [(0, { label := "", position := ⟨0, 0⟩, direction := .Right }),
              (1, { label := "", position := ⟨30, 0⟩, direction := .Right }),
              (2, { label := "", position := ⟨15, 20⟩, direction := .Right })],
    bonds := [(10, ⟨0, 1, .Normal 1⟩), (11, ⟨1, 2, .Normal 1⟩),
              (12, ⟨2, 0, .Normal 1⟩)],
    position := ⟨0, 0⟩ }

/-! ### Document state (`src/canvas/state.rs`, `src/canvas/selection.rs`) -/

/-- `SingleSelection` (selection.rs lines 105-110). -/
inductive SingleSelection
  | Molecule (mid : MoleculeId)
  | Atom (mid : MoleculeId) (aid : AtomId)
  | Bond (mid : MoleculeId) (bid : BondId)
deriving DecidableEq, Repr

/-- `State` (state.rs lines 21-25): the molecule map and the multi
selection (a `Vec<SingleSelection>`). -/
structure DocState where
  molecules : List (MoleculeId × Molecule)
  selection : List SingleSelection
deriving DecidableEq, Repr

namespace DocState

/-- `State::remove_molecule` (state.rs lines 107-111).  Mutations made
through `&mut self` before an error (here the selection clear) persist,
so the state is returned alongside the result. -/
def remove_molecule (s : DocState) (mid : MoleculeId) :
    DocState × Except MolError Molecule :=
  let s₁ : DocState := { s with selection := [] }
  match lookupKV mid s₁.molecules with
  | none => (s₁, .error (.MoleculeMissing mid))
  | some m => ({ s₁ with molecules := eraseKey mid s₁.molecules }, .ok m)

/-- `State::add_molecule_with_atom` (state.rs lines 33-39): the insert
happens first; a collision replaces the stored molecule *and* reports an
error. -/
def add_molecule_with_atom (s : DocState) (mid : MoleculeId) (aid : AtomId)
    (label : String) (position : Vec2) : DocState × Except MolError Unit :=
  match insertKV mid (Molecule.new position aid label) s.molecules with
  | (some _, mols) => ({ s with molecules := mols }, .error (.MoleculeCollision mid))
  | (none, mols) => ({ s with molecules := mols }, .ok ())

/-- The fragment-insertion loop of `State::delete_atom` (state.rs lines
122-125).  `anyhow::Context` is implemented for `Option`, so
`map.insert(id, mol).context(...)?` *errors when `insert` returns
`None`* — i.e. exactly when the freshly drawn id was not already in use.
Under a fresh id the first fragment is inserted and the loop then
returns an error, dropping the remaining fragments.  `fresh` supplies the
successive draws of `MoleculeId::new()`. -/
def insertDetachedLoop (fresh : ℕ → MoleculeId) :
    ℕ → List Molecule → List (MoleculeId × Molecule) →
    List (MoleculeId × Molecule) × Except MolError Unit
  | _, [], mols => (mols, .ok ())
  | i, d :: ds, mols =>
      match insertKV (fresh i) d mols with
      | (some _, mols') => insertDetachedLoop fresh (i + 1) ds mols'
      | (none, mols') =>
          (mols', .error (.OptionContext "while inserting detached molecules"))

/-- The fragment-insertion loop of `State::delete_bond` (state.rs lines
135-137): plain `insert`, result discarded. -/
def insertPlainLoop (fresh : ℕ → MoleculeId) :
    ℕ → List Molecule → List (MoleculeId × Molecule) → List (MoleculeId × Molecule)
  | _, [], mols => mols
  | i, d :: ds, mols => insertPlainLoop fresh (i + 1) ds (insertKV (fresh i) d mols).2

/-- `State::delete_atom` (state.rs lines 113-128): clear the selection,
delete the atom inside the molecule, drop the molecule if it became
empty, then insert the detached fragments (with the `Option`-context
quirk of `insertDetachedLoop`).  On the error paths of
`Molecule::delete_atom` the source molecule may have been partially
mutated in place; those paths are unreachable for well-formed molecules
and no property below depends on the map contents after an error. -/
def delete_atom (s : DocState) (mid : MoleculeId) (aid : AtomId)
    (fresh : ℕ → MoleculeId) : DocState × Except MolError Unit :=
  let s₁ : DocState := { s with selection := [] }
  match lookupKV mid s₁.molecules with
  | none => (s₁, .error (.MoleculeMissing mid))
  | some mol =>
      match mol.delete_atom aid with
      | .error e => (s₁, .error e)
      | .ok (home, detached) =>
          let newMols := s₁.molecules.map (fun p => if p.1 = mid then (p.1, home) else p)
          let s₂ : DocState := { s₁ with molecules := newMols }
          match (if home.is_empty then
                   match s₂.remove_molecule mid with
                   | (s₃, .ok _) => (s₃, Except.ok ())
                   | (s₃, .error e) => (s₃, Except.error e)
                 else (s₂, Except.ok ())) with
          | (s₄, .error e) => (s₄, .error e)
          | (s₄, .ok _) =>
              match insertDetachedLoop fresh 0 detached s₄.molecules with
              | (mols, .ok _) => ({ s₄ with molecules := mols }, .ok ())
              | (mols, .error e) => ({ s₄ with molecules := mols }, .error e)

/-- `State::delete_bond` (state.rs lines 130-140): clear the selection,
delete the bond inside the molecule, insert the detached fragments. -/
def delete_bond (s : DocState) (mid : MoleculeId) (bid : BondId)
    (fresh : ℕ → MoleculeId) : DocState × Except MolError Unit :=
  let s₁ : DocState := { s with selection := [] }
  match lookupKV mid s₁.molecules with
  | none => (s₁, .error (.MoleculeMissing mid))
  | some mol =>
      match mol.delete_bond bid with
      | .error e => (s₁, .error e)
      | .ok (home, detached) =>
          let newMols := s₁.molecules.map (fun p => if p.1 = mid then (p.1, home) else p)
          let s₂ : DocState := { s₁ with molecules := newMols }
          ({ s₂ with molecules := insertPlainLoop fresh 0 detached s₂.molecules },
           .ok ())

/-- The document invariant of §Invariants of the specification: every
molecule stored in the map has at least one atom. -/
def NoEmpty (s : DocState) : Prop :=
  ∀ p ∈ s.molecules, p.2.atoms ≠ []

end DocState

/-- A document holding the single-atom molecule `Molecule.new ⟨0,0⟩ 7 "C"`
under molecule id 5, used as a concrete witness input. -/
def dC6 : DocState :=
  { molecules := [(5, Molecule.new ⟨0, 0⟩ 7 "C")], selection := [] }

/-! ## Lemmas and claim theorems -/

/-! ### Association-list lemmas -/

theorem lookupKV_isSome_iff {α : Type} (k : ℕ) (l : List (ℕ × α)) :
    (lookupKV k l).isSome ↔ k ∈ l.map Prod.fst := by
  induction l with
  | nil => simp [lookupKV]
  | cons p rest ih =>
      obtain ⟨k', v⟩ := p
      by_cases h : k = k' <;> simp [lookupKV, h, ih]

theorem lookupKV_eq_none_iff {α : Type} (k : ℕ) (l : List (ℕ × α)) :
    lookupKV k l = none ↔ k ∉ l.map Prod.fst := by
  rw [← lookupKV_isSome_iff, Option.isSome_iff_ne_none]
  tauto

theorem lookupKV_eq_some_mem {α : Type} {k : ℕ} {v : α} {l : List (ℕ × α)}
    (h : lookupKV k l = some v) : (k, v) ∈ l := by
  induction l with
  | nil => simp [lookupKV] at h
  | cons p rest ih =>
      obtain ⟨k', w⟩ := p
      by_cases hk : k = k'
      · subst hk
        simp [lookupKV] at h
        simp [h]
      · simp [lookupKV, hk] at h
        exact List.mem_cons_of_mem _ (ih h)

theorem lookupKV_eq_some_key_mem {α : Type} {k : ℕ} {v : α} {l : List (ℕ × α)}
    (h : lookupKV k l = some v) : k ∈ l.map Prod.fst := by
  rw [← lookupKV_isSome_iff, h]
  rfl

theorem lookupKV_eraseKey_self {α : Type} (k : ℕ) (l : List (ℕ × α)) :
    lookupKV k (eraseKey k l) = none := by
  induction l with
  | nil => rfl
  | cons p rest ih =>
      obtain ⟨k', v⟩ := p
      by_cases h : k' = k
      · simpa [eraseKey, h] using (by simpa [eraseKey] using ih)
      · simpa [eraseKey, h, lookupKV, Ne.symm h] using (by simpa [eraseKey] using ih)

theorem lookupKV_eraseKey_ne {α : Type} {j k : ℕ} (h : j ≠ k) (l : List (ℕ × α)) :
    lookupKV j (eraseKey k l) = lookupKV j l := by
  induction l with
  | nil => rfl
  | cons p rest ih =>
      obtain ⟨k', v⟩ := p
      by_cases hk : k' = k
      · subst hk
        have hj : j ≠ k' := h
        simpa [eraseKey, lookupKV, hj] using (by simpa [eraseKey] using ih)
      · by_cases hj : j = k'
        · subst hj
          simp [eraseKey, hk, lookupKV]
        · simpa [eraseKey, hk, lookupKV, hj] using (by simpa [eraseKey] using ih)

theorem keys_eraseKey_mem {α : Type} (k a : ℕ) (l : List (ℕ × α)) :
    a ∈ (eraseKey k l).map Prod.fst ↔ a ∈ l.map Prod.fst ∧ a ≠ k := by
  simp only [eraseKey, List.mem_map]
  constructor
  · rintro ⟨p, hp, rfl⟩
    rw [List.mem_filter] at hp
    exact ⟨⟨p, hp.1, rfl⟩, by simpa using hp.2⟩
  · rintro ⟨⟨p, hp, rfl⟩, hne⟩
    exact ⟨p, List.mem_filter.mpr ⟨hp, by simpa using hne⟩, rfl⟩

theorem keys_eraseKey_nodup {α : Type} (k : ℕ) (l : List (ℕ × α))
    (h : (l.map Prod.fst).Nodup) : ((eraseKey k l).map Prod.fst).Nodup :=
  List.Nodup.sublist (List.Sublist.map _ (List.filter_sublist _)) h

/-! ### Breadth-first traversal lemmas -/

theorem mem_neighborsOf_endpoints {bonds : List (BondId × Bond)} {a x : AtomId}
    (h : x ∈ neighborsOf bonds a) : x ∈ bondEndpointAtoms bonds := by
  simp only [neighborsOf, bondEndpointAtoms, List.mem_flatMap] at h ⊢
  obtain ⟨p, hp, hx⟩ := h
  exact ⟨p, List.mem_of_mem_filter hp, hx⟩

theorem length_bondEndpointAtoms (bonds : List (BondId × Bond)) :
    (bondEndpointAtoms bonds).length = 2 * bonds.length := by
  induction bonds with
  | nil => rfl
  | cons p rest ih =>
      have hsplit : bondEndpointAtoms (p :: rest) =
          p.2.atomIds ++ bondEndpointAtoms rest := by
        simp [bondEndpointAtoms]
      rw [hsplit, List.length_append, ih, Bond.atomIds]
      simp only [List.length_cons, List.length_nil, List.length_singleton]
      omega

theorem countUnseen_le (bonds : List (BondId × Bond)) (v : List AtomId) :
    countUnseen bonds v ≤ 2 * bonds.length := by
  calc countUnseen bonds v
      ≤ (bondEndpointAtoms bonds).dedup.length :=
        List.Sublist.length_le (List.filter_sublist _)
    _ ≤ (bondEndpointAtoms bonds).length :=
        List.Sublist.length_le (List.dedup_sublist _)
    _ = 2 * bonds.length := length_bondEndpointAtoms bonds

theorem filter_push_length (a : AtomId) (v : List AtomId) :
    ∀ (l : List AtomId), l.Nodup → a ∈ l → a ∉ v →
      (l.filter (fun b => b ∉ (a :: v))).length + 1 =
        (l.filter (fun b => b ∉ v)).length := by
  intro l
  induction l with
  | nil => intro _ h; simp at h
  | cons b rest ih =>
      intro hnd hal hav
      have hndr : rest.Nodup := (List.nodup_cons.mp hnd).2
      by_cases hab : a = b
      · subst hab
        have hnr : a ∉ rest := (List.nodup_cons.mp hnd).1
        have hcongr : rest.filter (fun b => decide (b ∉ (a :: v))) =
            rest.filter (fun b => decide (b ∉ v)) := by
          refine List.filter_congr ?_
          intro x hx
          have hxa : x ≠ a := fun hxa => hnr (hxa ▸ hx)
          simp [hxa]
        simp only [List.filter_cons]
        have h1 : (decide (a ∉ (a :: v))) = false := by simp
        have h2 : (decide (a ∉ v)) = true := by simpa using hav
        rw [h1, h2, hcongr]
        simp
      · have hal' : a ∈ rest := by
          rcases List.mem_cons.mp hal with h | h
          · exact absurd h hab
          · exact h
        have hstep := ih hndr hal' hav
        by_cases hbv : b ∈ v
        · have e1 : decide (b ∉ (a :: v)) = false := by simp [hbv]
          have e2 : decide (b ∉ v) = false := by simp [hbv]
          simp only [List.filter_cons, e1, e2]
          simpa using hstep
        · have e1 : decide (b ∉ (a :: v)) = true := by
            simp only [decide_eq_true_eq, List.mem_cons, not_or]
            exact ⟨fun h => hab h.symm, hbv⟩
          have e2 : decide (b ∉ v) = true := by simpa using hbv
          simp only [List.filter_cons, e1, e2, if_true, List.length_cons]
          omega

theorem countUnseen_push {bonds : List (BondId × Bond)} {a : AtomId} {v : List AtomId}
    (ha : a ∈ bondEndpointAtoms bonds) (hav : a ∉ v) :
    countUnseen bonds (a :: v) + 1 = countUnseen bonds v :=
  filter_push_length a v _ (List.nodup_dedup _) (List.mem_dedup.mpr ha) hav

theorem countUnseen_push_le (bonds : List (BondId × Bond)) (a : AtomId) (v : List AtomId) :
    countUnseen bonds (a :: v) ≤ countUnseen bonds v := by
  refine List.Sublist.length_le (List.monotone_filter_right _ ?_)
  intro x hx
  simp only [decide_eq_true_eq] at hx ⊢
  exact fun hv => hx (List.mem_cons_of_mem _ hv)

theorem enqueueAll_fst_mem (l : List AtomId) :
    ∀ (v q : List AtomId) (a : AtomId),
      a ∈ (enqueueAll l (v, q)).1 ↔ a ∈ v ∨ a ∈ l := by
  induction l with
  | nil => intro v q a; simp [enqueueAll]
  | cons b rest ih =>
      intro v q a
      by_cases hb : b ∈ v
      · rw [show enqueueAll (b :: rest) (v, q) = enqueueAll rest (v, q) by
          simp [enqueueAll, hb]]
        rw [ih]
        constructor
        · rintro (h | h)
          · exact Or.inl h
          · exact Or.inr (List.mem_cons_of_mem _ h)
        · rintro (h | h)
          · exact Or.inl h
          · rcases List.mem_cons.mp h with rfl | h
            · exact Or.inl hb
            · exact Or.inr h
      · rw [show enqueueAll (b :: rest) (v, q) = enqueueAll rest (b :: v, q ++ [b]) by
          simp [enqueueAll, hb]]
        rw [ih]
        constructor
        · rintro (h | h)
          · rcases List.mem_cons.mp h with rfl | h
            · exact Or.inr (List.mem_cons_self _ _)
            · exact Or.inl h
          · exact Or.inr (List.mem_cons_of_mem _ h)
        · rintro (h | h)
          · exact Or.inl (List.mem_cons_of_mem _ h)
          · rcases List.mem_cons.mp h with rfl | h
            · exact Or.inl (List.mem_cons_self _ _)
            · exact Or.inr h

theorem enqueueAll_snd_keeps (l : List AtomId) :
    ∀ (v q : List AtomId) (a : AtomId), a ∈ q → a ∈ (enqueueAll l (v, q)).2 := by
  induction l with
  | nil => intro v q a h; simpa [enqueueAll] using h
  | cons b rest ih =>
      intro v q a h
      by_cases hb : b ∈ v
      · rw [show enqueueAll (b :: rest) (v, q) = enqueueAll rest (v, q) by
          simp [enqueueAll, hb]]
        exact ih v q a h
      · rw [show enqueueAll (b :: rest) (v, q) = enqueueAll rest (b :: v, q ++ [b]) by
          simp [enqueueAll, hb]]
        exact ih _ _ a (List.mem_append_left _ h)

theorem enqueueAll_snd_sub (l : List AtomId) :
    ∀ (v q : List AtomId) (a : AtomId),
      a ∈ (enqueueAll l (v, q)).2 → a ∈ q ∨ (a ∈ l ∧ a ∉ v) := by
  induction l with
  | nil => intro v q a h; exact Or.inl (by simpa [enqueueAll] using h)
  | cons b rest ih =>
      intro v q a h
      by_cases hb : b ∈ v
      · rw [show enqueueAll (b :: rest) (v, q) = enqueueAll rest (v, q) by
          simp [enqueueAll, hb]] at h
        rcases ih v q a h with h | ⟨h1, h2⟩
        · exact Or.inl h
        · exact Or.inr ⟨List.mem_cons_of_mem _ h1, h2⟩
      · rw [show enqueueAll (b :: rest) (v, q) = enqueueAll rest (b :: v, q ++ [b]) by
          simp [enqueueAll, hb]] at h
        rcases ih _ _ a h with h | ⟨h1, h2⟩
        · rcases List.mem_append.mp h with h | h
          · exact Or.inl h
          · simp only [List.mem_singleton] at h
            exact Or.inr ⟨h ▸ List.mem_cons_self _ _, h ▸ hb⟩
        · have h2' : a ∉ v := fun hv => h2 (List.mem_cons_of_mem _ hv)
          exact Or.inr ⟨List.mem_cons_of_mem _ h1, h2'⟩

theorem enqueueAll_queue_sub_visited (l : List AtomId) :
    ∀ (v q : List AtomId), (∀ a ∈ q, a ∈ v) →
      ∀ a ∈ (enqueueAll l (v, q)).2, a ∈ (enqueueAll l (v, q)).1 := by
  intro v q hq a ha
  rcases enqueueAll_snd_sub l v q a ha with h | ⟨h1, _⟩
  · exact (enqueueAll_fst_mem l v q a).mpr (Or.inl (hq a h))
  · exact (enqueueAll_fst_mem l v q a).mpr (Or.inr h1)

theorem enqueueAll_fresh_queued (l : List AtomId) :
    ∀ (v q : List AtomId) (a : AtomId),
      a ∈ (enqueueAll l (v, q)).1 → a ∉ v → a ∈ (enqueueAll l (v, q)).2 := by
  induction l with
  | nil =>
      intro v q a h hv
      exact absurd (by simpa [enqueueAll] using h) hv
  | cons b rest ih =>
      intro v q a h hv
      by_cases hb : b ∈ v
      · rw [show enqueueAll (b :: rest) (v, q) = enqueueAll rest (v, q) by
          simp [enqueueAll, hb]] at h ⊢
        exact ih v q a h hv
      · rw [show enqueueAll (b :: rest) (v, q) = enqueueAll rest (b :: v, q ++ [b]) by
          simp [enqueueAll, hb]] at h ⊢
        by_cases hab : a = b
        · subst hab
          exact enqueueAll_snd_keeps rest _ _ a (List.mem_append_right _ (by simp))
        · have hv' : a ∉ b :: v := by
            intro hmem
            rcases List.mem_cons.mp hmem with h' | h'
            · exact hab h'
            · exact hv h'
          exact ih _ _ a h hv'

theorem enqueueAll_measure (bonds : List (BondId × Bond)) (l : List AtomId) :
    ∀ (v q : List AtomId), (∀ a ∈ l, a ∈ bondEndpointAtoms bonds) →
      (enqueueAll l (v, q)).2.length + 2 * countUnseen bonds (enqueueAll l (v, q)).1 ≤
        q.length + 2 * countUnseen bonds v := by
  induction l with
  | nil => intro v q _; simp [enqueueAll]
  | cons b rest ih =>
      intro v q hl
      have hlr : ∀ a ∈ rest, a ∈ bondEndpointAtoms bonds :=
        fun a ha => hl a (List.mem_cons_of_mem _ ha)
      by_cases hb : b ∈ v
      · rw [show enqueueAll (b :: rest) (v, q) = enqueueAll rest (v, q) by
          simp [enqueueAll, hb]]
        exact ih v q hlr
      · rw [show enqueueAll (b :: rest) (v, q) = enqueueAll rest (b :: v, q ++ [b]) by
          simp [enqueueAll, hb]]
        have hpush := countUnseen_push (hl b (List.mem_cons_self _ _)) hb
        have := ih (b :: v) (q ++ [b]) hlr
        simp only [List.length_append, List.length_singleton] at this
        omega

/-- `expand_bounds` leaves the state unchanged when the point is inside
the tracked rectangle. -/
theorem expandBounds_id (mc xc p : Vec2) (h1 : ¬ p.x < mc.x) (h2 : ¬ p.y < mc.y)
    (h3 : ¬ p.x > xc.x) (h4 : ¬ p.y > xc.y) :
    Bounds.expandBounds (mc, xc) p = (mc, xc) := by
  simp only [Bounds.expandBounds, if_neg h1, if_neg h2, if_neg h3, if_neg h4]

/-- `expand_bounds` when the point extends the maximum corner in x only. -/
theorem expandBounds_max_x (mc xc p : Vec2) (h1 : ¬ p.x < mc.x) (h2 : ¬ p.y < mc.y)
    (h3 : xc.x ≤ p.x) (h4 : ¬ p.y > xc.y) :
    Bounds.expandBounds (mc, xc) p = (mc, ⟨p.x, xc.y⟩) := by
  rcases lt_or_eq_of_le h3 with h | h
  · simp only [Bounds.expandBounds, if_neg h1, if_neg h2, if_pos h]
  · simp only [Bounds.expandBounds, if_neg h1, if_neg h2, gt_iff_lt, h,
      lt_irrefl, if_false, if_neg h4]
    exact congrArg _ (by cases xc; simp_all)

/-- `expand_bounds` when the point extends the maximum corner in y only. -/
theorem expandBounds_max_y (mc xc p : Vec2) (h1 : ¬ p.x < mc.x) (h2 : ¬ p.y < mc.y)
    (h3 : ¬ p.x > xc.x) (h4 : xc.y ≤ p.y) :
    Bounds.expandBounds (mc, xc) p = (mc, ⟨xc.x, p.y⟩) := by
  rcases lt_or_eq_of_le h4 with h | h
  · simp only [Bounds.expandBounds, if_neg h1, if_neg h2, if_neg h3, if_pos h]
  · simp only [Bounds.expandBounds, if_neg h1, if_neg h2, if_neg h3]
    exact congrArg _ (by cases xc; simp_all)

/-- The four world-space corners of an axis-aligned box. -/
theorem points_fromRect (ox oy w h : ℚ) :
    (Bounds.fromRect ⟨ox, oy⟩ ⟨w, h⟩).points =
      [⟨ox, oy⟩, ⟨ox + w, oy⟩, ⟨ox + w, oy + h⟩, ⟨ox, oy + h⟩] := by
  simp only [Bounds.points, Bounds.fromRect, Bounds.transformPoint, List.map_cons,
    List.map_nil]
  norm_num
  exact ⟨by ring, by ring⟩

/-- The corner fold of `union(A, A)` for an axis-aligned box recovers the
box's own min/max corners. -/
theorem foldl_expand_rect (ox oy w h : ℚ) (hw : 0 ≤ w) (hh : 0 ≤ h) :
    List.foldl Bounds.expandBounds ((⟨ox, oy⟩ : Vec2), (⟨ox, oy⟩ : Vec2))
      [⟨ox + w, oy⟩, ⟨ox + w, oy + h⟩, ⟨ox, oy + h⟩,
       ⟨ox, oy⟩, ⟨ox + w, oy⟩, ⟨ox + w, oy + h⟩, ⟨ox, oy + h⟩] =
      ((⟨ox, oy⟩ : Vec2), (⟨ox + w, oy + h⟩ : Vec2)) := by
  rw [List.foldl_cons,
    expandBounds_max_x ⟨ox, oy⟩ ⟨ox, oy⟩ ⟨ox + w, oy⟩ (by simp; linarith)
      (by simp) (by simp; linarith) (by simp)]
  rw [List.foldl_cons,
    expandBounds_max_y ⟨ox, oy⟩ ⟨ox + w, oy⟩ ⟨ox + w, oy + h⟩ (by simp; linarith)
      (by simp; linarith) (by simp) (by simp; linarith)]
  rw [List.foldl_cons,
    expandBounds_id ⟨ox, oy⟩ ⟨ox + w, oy + h⟩ ⟨ox, oy + h⟩ (by simp)
      (by simp; linarith) (by simp; linarith) (by simp)]
  rw [List.foldl_cons,
    expandBounds_id ⟨ox, oy⟩ ⟨ox + w, oy + h⟩ ⟨ox, oy⟩ (by simp)
      (by simp) (by simp; linarith) (by simp; linarith)]
  rw [List.foldl_cons,
    expandBounds_id ⟨ox, oy⟩ ⟨ox + w, oy + h⟩ ⟨ox + w, oy⟩ (by simp; linarith)
      (by simp) (by simp) (by simp; linarith)]
  rw [List.foldl_cons,
    expandBounds_id ⟨ox, oy⟩ ⟨ox + w, oy + h⟩ ⟨ox + w, oy + h⟩ (by simp; linarith)
      (by simp; linarith) (by simp) (by simp)]
  rw [List.foldl_cons,
    expandBounds_id ⟨ox, oy⟩ ⟨ox + w, oy + h⟩ ⟨ox, oy + h⟩ (by simp)
      (by simp; linarith) (by simp; linarith) (by simp)]
  rfl

theorem enqueueAll_fst_nodup (l : List AtomId) :
    ∀ (v q : List AtomId), v.Nodup → (enqueueAll l (v, q)).1.Nodup := by
  induction l with
  | nil => intro v q h; simpa [enqueueAll] using h
  | cons b rest ih =>
      intro v q h
      by_cases hb : b ∈ v
      · rw [show enqueueAll (b :: rest) (v, q) = enqueueAll rest (v, q) by
          simp [enqueueAll, hb]]
        exact ih v q h
      · rw [show enqueueAll (b :: rest) (v, q) = enqueueAll rest (b :: v, q ++ [b]) by
          simp [enqueueAll, hb]]
        exact ih _ _ (List.nodup_cons.mpr ⟨hb, h⟩)

theorem bfsAux_mono (bonds : List (BondId × Bond)) :
    ∀ (fuel : ℕ) (v q : List AtomId) (a : AtomId),
      a ∈ v → a ∈ bfsAux bonds fuel v q := by
  intro fuel
  induction fuel with
  | zero => intro v q a h; simpa [bfsAux] using h
  | succ n ih =>
      intro v q a h
      cases q with
      | nil => simpa [bfsAux] using h
      | cons c q' =>
          simp only [bfsAux]
          exact ih _ _ a ((enqueueAll_fst_mem _ _ _ a).mpr (Or.inl h))

theorem bfsAux_sub (bonds : List (BondId × Bond)) :
    ∀ (fuel : ℕ) (v q : List AtomId) (a : AtomId),
      a ∈ bfsAux bonds fuel v q → a ∈ v ∨ a ∈ bondEndpointAtoms bonds := by
  intro fuel
  induction fuel with
  | zero => intro v q a h; exact Or.inl (by simpa [bfsAux] using h)
  | succ n ih =>
      intro v q a h
      cases q with
      | nil => exact Or.inl (by simpa [bfsAux] using h)
      | cons c q' =>
          simp only [bfsAux] at h
          rcases ih _ _ a h with h' | h'
          · rcases (enqueueAll_fst_mem _ _ _ a).mp h' with h'' | h''
            · exact Or.inl h''
            · exact Or.inr (mem_neighborsOf_endpoints h'')
          · exact Or.inr h'

theorem bfsAux_nodup (bonds : List (BondId × Bond)) :
    ∀ (fuel : ℕ) (v q : List AtomId), v.Nodup → (bfsAux bonds fuel v q).Nodup := by
  intro fuel
  induction fuel with
  | zero => intro v q h; simpa [bfsAux] using h
  | succ n ih =>
      intro v q h
      cases q with
      | nil => simpa [bfsAux] using h
      | cons c q' =>
          simp only [bfsAux]
          exact ih _ _ (enqueueAll_fst_nodup _ _ _ h)

theorem bfsAux_closed (bonds : List (BondId × Bond)) :
    ∀ (fuel : ℕ) (v q : List AtomId),
      (∀ a ∈ q, a ∈ v) →
      (∀ x ∈ v, x ∉ q → ∀ y ∈ neighborsOf bonds x, y ∈ v) →
      q.length + 2 * countUnseen bonds v ≤ fuel →
      ∀ x ∈ bfsAux bonds fuel v q, ∀ y ∈ neighborsOf bonds x,
        y ∈ bfsAux bonds fuel v q := by
  intro fuel
  induction fuel with
  | zero =>
      intro v q hq hproc hfuel x hx y hy
      have hq0 : q = [] := List.length_eq_zero.mp (by omega)
      subst hq0
      simp only [bfsAux] at hx ⊢
      exact hproc x hx (by simp) y hy
  | succ n ih =>
      intro v q hq hproc hfuel x hx y hy
      cases q with
      | nil =>
          simp only [bfsAux] at hx ⊢
          exact hproc x hx (by simp) y hy
      | cons c q' =>
          simp only [bfsAux] at hx ⊢
          set vq := enqueueAll (neighborsOf bonds c) (v, q') with hvq
          have hq'sub : ∀ a ∈ q', a ∈ v := fun a ha => hq a (List.mem_cons_of_mem _ ha)
          have hq2 : ∀ a ∈ vq.2, a ∈ vq.1 :=
            enqueueAll_queue_sub_visited _ _ _ hq'sub
          have hproc2 : ∀ z ∈ vq.1, z ∉ vq.2 → ∀ w ∈ neighborsOf bonds z, w ∈ vq.1 := by
            intro z hz hznq w hw
            by_cases hzv : z ∈ v
            · by_cases hzc : z = c
              · subst hzc
                exact (enqueueAll_fst_mem _ _ _ w).mpr (Or.inr hw)
              · have hznq' : z ∉ q' := fun hq'' => hznq (enqueueAll_snd_keeps _ _ _ z hq'')
                have hznc : z ∉ c :: q' := by
                  intro hmem
                  rcases List.mem_cons.mp hmem with h | h
                  · exact hzc h
                  · exact hznq' h
                exact (enqueueAll_fst_mem _ _ _ w).mpr
                  (Or.inl (hproc z hzv hznc w hw))
            · exact absurd (enqueueAll_fresh_queued _ _ _ z hz hzv) hznq
          have hmeas : vq.2.length + 2 * countUnseen bonds vq.1 ≤ n := by
            have hst := enqueueAll_measure bonds (neighborsOf bonds c) v q'
              (fun a ha => mem_neighborsOf_endpoints ha)
            rw [← hvq] at hst
            simp only [List.length_cons] at hfuel
            omega
          exact ih vq.1 vq.2 hq2 hproc2 hmeas x hx y hy

theorem get_connected_root (m : Molecule) (a : AtomId) : a ∈ m.get_connected a :=
  bfsAux_mono m.bonds _ [a] [a] a (by simp)

theorem get_connected_nodup (m : Molecule) (a : AtomId) : (m.get_connected a).Nodup :=
  bfsAux_nodup m.bonds _ [a] [a] (by simp)

theorem get_connected_sub (m : Molecule) (a x : AtomId)
    (h : x ∈ m.get_connected a) : x = a ∨ x ∈ bondEndpointAtoms m.bonds := by
  rcases bfsAux_sub m.bonds _ [a] [a] x h with h' | h'
  · exact Or.inl (by simpa using h')
  · exact Or.inr h'

theorem get_connected_closed (m : Molecule) (a : AtomId) :
    ∀ x ∈ m.get_connected a, ∀ y ∈ neighborsOf m.bonds x, y ∈ m.get_connected a := by
  refine bfsAux_closed m.bonds _ [a] [a] (by simp) ?_ ?_
  · intro x hx hnx
    exact absurd hx hnx
  · have := countUnseen_le m.bonds [a]
    simp only [List.length_singleton]
    omega

theorem get_connected_complete (m : Molecule) (a x : AtomId)
    (h : ReachableIn m.bonds a x) : x ∈ m.get_connected a := by
  induction h with
  | refl => exact get_connected_root m a
  | tail _ hstep ih => exact get_connected_closed m a _ ih _ hstep

/-! ### Fragment-deduplication lemmas -/

theorem scanWalk_seen_mono : ∀ (w seen : List AtomId) (a : AtomId),
    a ∈ seen → a ∈ (scanWalk w seen).2 := by
  intro w
  induction w with
  | nil => intro seen a h; simpa [scanWalk] using h
  | cons b rest ih =>
      intro seen a h
      by_cases hb : b ∈ seen
      · simpa [scanWalk, hb] using h
      · rw [show scanWalk (b :: rest) seen = scanWalk rest (b :: seen) by
          simp [scanWalk, hb]]
        exact ih _ a (List.mem_cons_of_mem _ h)

theorem scanWalk_true_fresh : ∀ (w seen : List AtomId),
    (scanWalk w seen).1 = true → ∀ a ∈ w, a ∉ seen := by
  intro w
  induction w with
  | nil => intro seen _ a h; simp at h
  | cons b rest ih =>
      intro seen htrue a ha
      by_cases hb : b ∈ seen
      · rw [show scanWalk (b :: rest) seen = (false, seen) by simp [scanWalk, hb]] at htrue
        simp at htrue
      · rw [show scanWalk (b :: rest) seen = scanWalk rest (b :: seen) by
          simp [scanWalk, hb]] at htrue
        rcases List.mem_cons.mp ha with rfl | ha'
        · exact hb
        · exact fun hs => ih _ htrue a ha' (List.mem_cons_of_mem _ hs)

theorem scanWalk_true_nodup : ∀ (w seen : List AtomId),
    (scanWalk w seen).1 = true → w.Nodup := by
  intro w
  induction w with
  | nil => intro seen _; simp
  | cons b rest ih =>
      intro seen htrue
      by_cases hb : b ∈ seen
      · rw [show scanWalk (b :: rest) seen = (false, seen) by simp [scanWalk, hb]] at htrue
        simp at htrue
      · rw [show scanWalk (b :: rest) seen = scanWalk rest (b :: seen) by
          simp [scanWalk, hb]] at htrue
        refine List.nodup_cons.mpr ⟨?_, ih _ htrue⟩
        intro hbr
        exact scanWalk_true_fresh rest (b :: seen) htrue b hbr (List.mem_cons_self _ _)

theorem scanWalk_true_mem : ∀ (w seen : List AtomId),
    (scanWalk w seen).1 = true → ∀ a ∈ w, a ∈ (scanWalk w seen).2 := by
  intro w
  induction w with
  | nil => intro seen _ a h; simp at h
  | cons b rest ih =>
      intro seen htrue a ha
      by_cases hb : b ∈ seen
      · rw [show scanWalk (b :: rest) seen = (false, seen) by simp [scanWalk, hb]] at htrue
        simp at htrue
      · rw [show scanWalk (b :: rest) seen = scanWalk rest (b :: seen) by
          simp [scanWalk, hb]] at htrue ⊢
        rcases List.mem_cons.mp ha with rfl | ha'
        · exact scanWalk_seen_mono rest _ a (List.mem_cons_self _ _)
        · exact ih _ htrue a ha'

theorem collectUnique_spec : ∀ (walks : List (List AtomId)) (seen : List AtomId)
    (acc : List (List AtomId)),
    ∃ newSets, collectUnique walks seen acc = acc ++ newSets ∧
      (∀ w ∈ newSets, w ∈ walks ∧ w ≠ [] ∧ w.Nodup ∧ ∀ a ∈ w, a ∉ seen) ∧
      List.Pairwise (fun u v => ∀ a ∈ u, a ∉ v) newSets := by
  intro walks
  induction walks with
  | nil =>
      intro seen acc
      exact ⟨[], by simp [collectUnique], by simp, by simp⟩
  | cons w ws ih =>
      intro seen acc
      rcases hscan : scanWalk w seen with ⟨flag, seen'⟩
      cases flag
      · -- the walk hit an already-seen atom and is skipped
        rw [show collectUnique (w :: ws) seen acc = collectUnique ws seen' acc by
          simp [collectUnique, hscan]]
        obtain ⟨ns, heq, hprops, hpw⟩ := ih seen' acc
        refine ⟨ns, heq, fun u hu => ?_, hpw⟩
        obtain ⟨hin, hne, hnd, hfresh⟩ := hprops u hu
        refine ⟨List.mem_cons_of_mem _ hin, hne, hnd, fun a ha hs => ?_⟩
        have : a ∈ (scanWalk w seen).2 := scanWalk_seen_mono w seen a hs
        rw [hscan] at this
        exact hfresh a ha this
      · -- the walk is fresh
        have htrue : (scanWalk w seen).1 = true := by rw [hscan]
        have hseen' : (scanWalk w seen).2 = seen' := by rw [hscan]
        by_cases hwe : w.isEmpty
        · rw [show collectUnique (w :: ws) seen acc = collectUnique ws seen' (acc ++ []) by
            simp [collectUnique, hscan, hwe]]
          rw [List.append_nil]
          obtain ⟨ns, heq, hprops, hpw⟩ := ih seen' acc
          refine ⟨ns, heq, fun u hu => ?_, hpw⟩
          obtain ⟨hin, hne, hnd, hfresh⟩ := hprops u hu
          refine ⟨List.mem_cons_of_mem _ hin, hne, hnd, fun a ha hs => ?_⟩
          have := scanWalk_seen_mono w seen a hs
          rw [hscan] at this
          exact hfresh a ha this
        · rw [show collectUnique (w :: ws) seen acc = collectUnique ws seen' (acc ++ [w]) by
            simp [collectUnique, hscan, hwe]]
          obtain ⟨ns, heq, hprops, hpw⟩ := ih seen' (acc ++ [w])
          refine ⟨w :: ns, by simpa using heq, ?_, ?_⟩
          · intro u hu
            rcases List.mem_cons.mp hu with rfl | hu'
            · exact ⟨List.mem_cons_self _ _,
                fun hnil => hwe (by simp [hnil]),
                scanWalk_true_nodup _ seen htrue,
                scanWalk_true_fresh _ seen htrue⟩
            · obtain ⟨hin, hne, hnd, hfresh⟩ := hprops u hu'
              refine ⟨List.mem_cons_of_mem _ hin, hne, hnd, fun a ha hs => ?_⟩
              have := scanWalk_seen_mono w seen a hs
              rw [hscan] at this
              exact hfresh a ha this
          · refine List.pairwise_cons.mpr ⟨?_, hpw⟩
            intro u hu a haw hau
            obtain ⟨_, _, _, hfresh⟩ := hprops u hu
            have haseen' : a ∈ seen' := by
              have := scanWalk_true_mem w seen htrue a haw
              rwa [hscan] at this
            exact hfresh a hau haseen'

/-! ### Fragment-extraction lemmas -/

theorem takeAtoms_ok : ∀ (atomSet : List AtomId) (cur : List (AtomId × Atom)),
    atomSet.Nodup → (∀ a ∈ atomSet, a ∈ cur.map Prod.fst) →
    ∃ taken remaining, takeAtoms cur atomSet = .ok (taken, remaining) ∧
      taken.map Prod.fst = atomSet ∧
      (∀ x, x ∈ remaining.map Prod.fst ↔ x ∈ cur.map Prod.fst ∧ x ∉ atomSet) ∧
      remaining.Sublist cur := by
  intro atomSet
  induction atomSet with
  | nil =>
      intro cur _ _
      exact ⟨[], cur, rfl, rfl, by simp, List.Sublist.refl cur⟩
  | cons a rest ih =>
      intro cur hnd hsub
      have ha : a ∈ cur.map Prod.fst := hsub a (List.mem_cons_self _ _)
      obtain ⟨v, hv⟩ := Option.isSome_iff_exists.mp ((lookupKV_isSome_iff a cur).mpr ha)
      have hanr : a ∉ rest := (List.nodup_cons.mp hnd).1
      have hrest : ∀ b ∈ rest, b ∈ (eraseKey a cur).map Prod.fst := by
        intro b hb
        refine (keys_eraseKey_mem a b cur).mpr ⟨hsub b (List.mem_cons_of_mem _ hb), ?_⟩
        intro hba
        exact hanr (hba ▸ hb)
      obtain ⟨taken', remaining, heq, hkeys, hiff, hsubl⟩ :=
        ih (eraseKey a cur) (List.nodup_cons.mp hnd).2 hrest
      refine ⟨(a, v) :: taken', remaining, ?_, ?_, ?_, ?_⟩
      · simp only [takeAtoms, hv, heq]
      · simp [hkeys]
      · intro x
        rw [hiff x, keys_eraseKey_mem]
        simp only [List.mem_cons, not_or]
        tauto
      · exact hsubl.trans (List.filter_sublist cur)

theorem extractFragment_ok (m : Molecule) (atomSet : List AtomId)
    (hnd : atomSet.Nodup) (hsub : ∀ a ∈ atomSet, a ∈ m.atoms.map Prod.fst) :
    ∃ m' frag, m.extractFragment atomSet = .ok (m', frag) ∧
      frag.atoms.map Prod.fst = atomSet ∧
      (∀ x, x ∈ m'.atoms.map Prod.fst ↔ x ∈ m.atoms.map Prod.fst ∧ x ∉ atomSet) ∧
      m'.atoms.Sublist m.atoms ∧
      (∀ p, p ∈ m'.bonds ↔ p ∈ m.bonds ∧ p.2.start ∉ atomSet ∧ p.2.end' ∉ atomSet) ∧
      m'.bonds.Sublist m.bonds ∧ m'.position = m.position ∧ frag.position = m.position := by
  obtain ⟨taken, remaining, heq, hkeys, hiff, hsubl⟩ := takeAtoms_ok atomSet m.atoms hnd hsub
  have hlook : ∀ (x : AtomId), (lookupKV x taken).isSome ↔ x ∈ atomSet := by
    intro x
    rw [lookupKV_isSome_iff, hkeys]
  refine ⟨{ m with
              atoms := remaining,
              bonds := m.bonds.filter (fun p =>
                ¬ ((lookupKV p.2.start taken).isSome ∨ (lookupKV p.2.end' taken).isSome)) },
    { atoms := taken,
      bonds := m.bonds.filter (fun p =>
        (lookupKV p.2.start taken).isSome ∨ (lookupKV p.2.end' taken).isSome),
      position := m.position },
    by simp only [Molecule.extractFragment, heq], hkeys, hiff, hsubl, ?_,
    List.filter_sublist _, rfl, rfl⟩
  intro p
  rw [List.mem_filter]
  simp only [decide_eq_true_eq, not_or, hlook]

theorem extractAll_ok : ∀ (sets : List (List AtomId)) (m : Molecule),
    (∀ s ∈ sets, s.Nodup) →
    (∀ s ∈ sets, ∀ a ∈ s, a ∈ m.atoms.map Prod.fst) →
    List.Pairwise (fun u v => ∀ a ∈ u, a ∉ v) sets →
    ∃ m'' frags, m.extractAll sets = .ok (m'', frags) ∧
      frags.map (fun f => f.atoms.map Prod.fst) = sets ∧
      (∀ x, x ∈ m''.atoms.map Prod.fst ↔
        x ∈ m.atoms.map Prod.fst ∧ ∀ s ∈ sets, x ∉ s) ∧
      m''.atoms.Sublist m.atoms ∧ m''.bonds.Sublist m.bonds ∧
      m''.position = m.position ∧
      (∀ f ∈ frags, f.position = m.position) := by
  intro sets
  induction sets with
  | nil =>
      intro m _ _ _
      exact ⟨m, [], rfl, rfl, by simp, List.Sublist.refl _, List.Sublist.refl _, rfl,
        by simp⟩
  | cons s ss ih =>
      intro m hnd hsub hpw
      obtain ⟨m', frag, heq1, hfk, hiff1, hsubA, _hbiff, hsubB, hpos1, hfpos⟩ :=
        extractFragment_ok m s (hnd s (List.mem_cons_self _ _))
          (hsub s (List.mem_cons_self _ _))
      have hdisj : ∀ s' ∈ ss, ∀ a ∈ s', a ∉ s := by
        intro s' hs' a ha has
        exact (List.pairwise_cons.mp hpw).1 s' hs' a has ha
      have hsub' : ∀ s' ∈ ss, ∀ a ∈ s', a ∈ m'.atoms.map Prod.fst := by
        intro s' hs' a ha
        exact (hiff1 a).mpr ⟨hsub s' (List.mem_cons_of_mem _ hs') a ha,
          hdisj s' hs' a ha⟩
      obtain ⟨m'', frags, heq2, hfks, hiff2, hsubA2, hsubB2, hpos2, hfpos2⟩ :=
        ih m' (fun t ht => hnd t (List.mem_cons_of_mem _ ht)) hsub'
          (List.pairwise_cons.mp hpw).2
      refine ⟨m'', frag :: frags, ?_, ?_, ?_, hsubA2.trans hsubA, hsubB2.trans hsubB,
        hpos2.trans hpos1, ?_⟩
      · simp only [Molecule.extractAll, heq1, heq2]
      · simp [hfk, hfks]
      · intro x
        rw [hiff2 x, hiff1 x]
        constructor
        · rintro ⟨⟨hm, hns⟩, hss⟩
          refine ⟨hm, ?_⟩
          intro t ht
          rcases List.mem_cons.mp ht with rfl | ht'
          · exact hns
          · exact hss t ht'
        · rintro ⟨hm, hall⟩
          exact ⟨⟨hm, hall s (List.mem_cons_self _ _)⟩,
            fun t ht => hall t (List.mem_cons_of_mem _ ht)⟩
      · intro f hf
        rcases List.mem_cons.mp hf with rfl | hf'
        · exact hfpos
        · exact (hfpos2 f hf').trans hpos1

/-! ### Direction-update and split lemmas -/

theorem get_directly_connected_endpoints {m : Molecule} {a x : AtomId}
    (h : x ∈ m.get_directly_connected a) : x ∈ bondEndpointAtoms m.bonds := by
  simp only [Molecule.get_directly_connected] at h
  exact mem_neighborsOf_endpoints (List.mem_of_mem_filter h)

theorem wf_endpoint_mem {m : Molecule} (hWF : m.WF) {x : AtomId}
    (hx : x ∈ bondEndpointAtoms m.bonds) : x ∈ m.atoms.map Prod.fst := by
  simp only [bondEndpointAtoms, List.mem_flatMap] at hx
  obtain ⟨p, hp, hx⟩ := hx
  obtain ⟨h1, h2⟩ := hWF.2.2 p hp
  simp only [Bond.atomIds, List.mem_cons, List.not_mem_nil, or_false] at hx
  rcases hx with rfl | rfl
  · exact (lookupKV_isSome_iff _ _).mp h1
  · exact (lookupKV_isSome_iff _ _).mp h2

theorem keys_map_modify {α : Type} (l : List (ℕ × α)) (k : ℕ) (g : α → α) :
    (l.map (fun p => if p.1 = k then (p.1, g p.2) else p)).map Prod.fst =
      l.map Prod.fst := by
  rw [List.map_map]
  refine List.map_congr_left ?_
  intro p _
  by_cases h : p.1 = k <;> simp [h]

theorem lookupAtoms_ok (m : Molecule) : ∀ (ids : List AtomId),
    (∀ b ∈ ids, b ∈ m.atoms.map Prod.fst) →
    ∃ out, m.lookupAtoms ids = .ok out := by
  intro ids
  induction ids with
  | nil => intro _; exact ⟨[], rfl⟩
  | cons a rest ih =>
      intro h
      obtain ⟨v, hv⟩ := Option.isSome_iff_exists.mp
        ((lookupKV_isSome_iff a m.atoms).mpr (h a (List.mem_cons_self _ _)))
      obtain ⟨out, hout⟩ := ih (fun b hb => h b (List.mem_cons_of_mem _ hb))
      exact ⟨v :: out, by simp only [Molecule.lookupAtoms, hv, hout]⟩

theorem update_atom_label_direction_ok (m : Molecule) (aid : AtomId)
    (ha : aid ∈ m.atoms.map Prod.fst)
    (hnb : ∀ b ∈ m.get_directly_connected aid, b ∈ m.atoms.map Prod.fst) :
    ∃ m', m.update_atom_label_direction aid = .ok m' ∧
      m'.atoms.map Prod.fst = m.atoms.map Prod.fst ∧
      m'.bonds = m.bonds ∧ m'.position = m.position := by
  obtain ⟨atom, hatom⟩ := Option.isSome_iff_exists.mp ((lookupKV_isSome_iff _ _).mpr ha)
  obtain ⟨out, hout⟩ := lookupAtoms_ok m (m.get_directly_connected aid) hnb
  refine ⟨{ m with
              atoms := m.atoms.map (fun p =>
                if p.1 = aid then
                  (p.1, { p.2 with direction := labelDirection (out.map (fun c =>
                    (⟨c.position.x - atom.position.x,
                      c.position.y - atom.position.y⟩ : Vec2))) })
                else p) },
    by simp only [Molecule.update_atom_label_direction, hatom, hout], ?_, rfl, rfl⟩
  exact keys_map_modify m.atoms aid (fun a =>
    { a with direction := labelDirection (out.map (fun c =>
        (⟨c.position.x - atom.position.x, c.position.y - atom.position.y⟩ : Vec2))) })

theorem updateDirections_ok : ∀ (ids : List AtomId) (m : Molecule),
    (∀ x ∈ bondEndpointAtoms m.bonds, x ∈ m.atoms.map Prod.fst) →
    (∀ a ∈ ids, a ∈ m.atoms.map Prod.fst) →
    ∃ m', m.updateDirections ids = .ok m' ∧
      m'.atoms.map Prod.fst = m.atoms.map Prod.fst ∧
      m'.bonds = m.bonds ∧ m'.position = m.position := by
  intro ids
  induction ids with
  | nil => intro m _ _; exact ⟨m, rfl, rfl, rfl, rfl⟩
  | cons a rest ih =>
      intro m hend hids
      obtain ⟨m', heq, hkeys, hbonds, hpos⟩ :=
        update_atom_label_direction_ok m a (hids a (List.mem_cons_self _ _))
          (fun b hb => hend b (get_directly_connected_endpoints hb))
      obtain ⟨m'', heq2, hkeys2, hbonds2, hpos2⟩ := ih m'
        (fun x hx => by
          rw [hkeys]
          exact hend x (by rwa [hbonds] at hx))
        (fun b hb => by
          rw [hkeys]
          exact hids b (List.mem_cons_of_mem _ hb))
      exact ⟨m'', by simp only [Molecule.updateDirections, heq, heq2],
        hkeys2.trans hkeys, hbonds2.trans hbonds, hpos2.trans hpos⟩

theorem scanWalk_complete : ∀ (w seen : List AtomId),
    (∀ a ∈ w, a ∉ seen) → w.Nodup → (scanWalk w seen).1 = true := by
  intro w
  induction w with
  | nil => intro seen _ _; rfl
  | cons b rest ih =>
      intro seen hfresh hnd
      have hb : b ∉ seen := hfresh b (List.mem_cons_self _ _)
      rw [show scanWalk (b :: rest) seen = scanWalk rest (b :: seen) by
        simp [scanWalk, hb]]
      refine ih _ ?_ (List.nodup_cons.mp hnd).2
      intro a ha hmem
      rcases List.mem_cons.mp hmem with rfl | h
      · exact (List.nodup_cons.mp hnd).1 ha
      · exact hfresh a (List.mem_cons_of_mem _ ha) h

theorem scanWalk_false_of_mem : ∀ (w seen : List AtomId) (a : AtomId),
    a ∈ w → a ∈ seen → (scanWalk w seen).1 = false := by
  intro w seen a haw has
  cases hres : (scanWalk w seen).1 with
  | false => rfl
  | true => exact absurd has (scanWalk_true_fresh w seen hres a haw)

/-- The full behaviour of `split_fragments` needed by claim C1: it
succeeds, and each pre-split atom ends up in exactly one of the home
molecule and the extracted fragments. -/
theorem split_fragments_spec (m : Molecule) (ids : List AtomId)
    (hend : ∀ x ∈ bondEndpointAtoms m.bonds, x ∈ m.atoms.map Prod.fst)
    (hids : ∀ a ∈ ids, a ∈ m.atoms.map Prod.fst)
    (hnd : (m.atoms.map Prod.fst).Nodup) :
    ∃ home frags, m.split_fragments ids = .ok (home, frags) ∧
      (∀ x, (x ∈ home.atoms.map Prod.fst ∨ ∃ f ∈ frags, x ∈ f.atoms.map Prod.fst) ↔
        x ∈ m.atoms.map Prod.fst) ∧
      (∀ f ∈ frags, ∀ x ∈ f.atoms.map Prod.fst, x ∉ home.atoms.map Prod.fst) ∧
      List.Pairwise
        (fun f g => ∀ x ∈ f.atoms.map Prod.fst, x ∉ g.atoms.map Prod.fst) frags ∧
      (home.atoms.map Prod.fst).Nodup ∧
      (∀ f ∈ frags, (f.atoms.map Prod.fst).Nodup) ∧
      (∀ f ∈ frags, f.atoms ≠ []) ∧
      (∀ f ∈ frags, f.position = m.position) ∧ home.position = m.position ∧
      (m.atoms ≠ [] → home.atoms ≠ []) := by
  obtain ⟨newSets, hcu, hprops, hpw⟩ :=
    collectUnique_spec (ids.map m.get_connected) [] []
  rw [List.nil_append] at hcu
  have hwalk_sub : ∀ w ∈ ids.map m.get_connected, ∀ x ∈ w,
      x ∈ m.atoms.map Prod.fst := by
    intro w hw x hx
    obtain ⟨a, ha, rfl⟩ := List.mem_map.mp hw
    rcases get_connected_sub m a x hx with rfl | hx'
    · exact hids x ha
    · exact hend x hx'
  by_cases hlen : (collectUnique (ids.map m.get_connected) [] []).length < 2
  · refine ⟨m, [], by simp only [Molecule.split_fragments, if_pos hlen], ?_, ?_, ?_,
      hnd, ?_, ?_, ?_, rfl, fun h => h⟩
    · intro x; simp
    · intro f hf; simp at hf
    · simp
    · intro f hf; simp at hf
    · intro f hf; simp at hf
    · intro f hf; simp at hf
  · have hsets_sub : ∀ s ∈ newSets.drop 1, ∀ a ∈ s, a ∈ m.atoms.map Prod.fst := by
      intro s hs a ha
      have hsw : s ∈ newSets := List.mem_of_mem_drop hs
      exact hwalk_sub s (hprops s hsw).1 a ha
    have hsets_nd : ∀ s ∈ newSets.drop 1, s.Nodup :=
      fun s hs => (hprops s (List.mem_of_mem_drop hs)).2.2.1
    have hsets_pw : List.Pairwise (fun u v => ∀ a ∈ u, a ∉ v) (newSets.drop 1) :=
      hpw.sublist (List.drop_sublist 1 newSets)
    obtain ⟨m'', frags, heq, hfks, hiff, hsubA, _hsubB, hpos, hfpos⟩ :=
      extractAll_ok (newSets.drop 1) m hsets_nd hsets_sub hsets_pw
    have hfrag_keys : ∀ f ∈ frags, f.atoms.map Prod.fst ∈ newSets.drop 1 := by
      intro f hf
      rw [← hfks]
      exact List.mem_map_of_mem _ hf
    refine ⟨m'', frags, ?_, ?_, ?_, ?_, ?_, ?_, ?_, hfpos, hpos, ?_⟩
    · simp only [Molecule.split_fragments]
      rw [if_neg hlen, hcu]
      exact heq
    · intro x
      constructor
      · rintro (hx | ⟨f, hf, hx⟩)
        · exact ((hiff x).mp hx).1
        · exact hsets_sub _ (hfrag_keys f hf) x hx
      · intro hx
        by_cases hin : ∀ s ∈ newSets.drop 1, x ∉ s
        · exact Or.inl ((hiff x).mpr ⟨hx, hin⟩)
        · push_neg at hin
          obtain ⟨s, hs, hxs⟩ := hin
          rw [← hfks] at hs
          obtain ⟨f, hf, rfl⟩ := List.mem_map.mp hs
          exact Or.inr ⟨f, hf, hxs⟩
    · intro f hf x hx hx'
      exact (((hiff x).mp hx').2) _ (hfrag_keys f hf) hx
    · rw [← hfks] at hsets_pw
      exact (List.pairwise_map.mp hsets_pw).imp (fun h => h)
    · exact List.Nodup.sublist (List.Sublist.map _ hsubA) hnd
    · intro f hf
      have := hfrag_keys f hf
      exact List.Nodup.sublist (List.Sublist.refl _)
        (hsets_nd _ this)
    · intro f hf hfe
      have hks := hfrag_keys f hf
      have hne := (hprops _ (List.mem_of_mem_drop hks)).2.1
      exact hne (by rw [hfe]; rfl)
    · intro _hm
      rcases hns : newSets with _ | ⟨s0, rest⟩
      · rw [hcu, hns] at hlen
        simp at hlen
      · have hs0 : s0 ∈ newSets := by rw [hns]; exact List.mem_cons_self _ _
        obtain ⟨hs0w, hs0ne, _, _⟩ := hprops s0 hs0
        obtain ⟨a0, ha0⟩ := List.exists_mem_of_ne_nil s0 hs0ne
        have ha0m : a0 ∈ m.atoms.map Prod.fst := hwalk_sub s0 hs0w a0 ha0
        have ha0nd : ∀ t ∈ newSets.drop 1, a0 ∉ t := by
          intro t ht
          rw [hns] at ht
          simp only [List.drop_one, List.tail_cons] at ht
          have := (List.pairwise_cons.mp (by rw [← hns]; exact hpw)).1 t ht
          exact fun hat => this a0 ha0 hat
        have : a0 ∈ m''.atoms.map Prod.fst := (hiff a0).mpr ⟨ha0m, ha0nd⟩
        intro hemp
        rw [hemp] at this
        simp at this

/-! ### Deletion lemmas -/

theorem delete_atom_spec (m : Molecule) (aid : AtomId) (a : Atom)
    (hWF : m.WF) (hla : lookupKV aid m.atoms = some a) :
    ∃ home frags, m.delete_atom aid = .ok (home, frags) ∧
      (∀ x, (x ∈ home.atoms.map Prod.fst ∨ ∃ f ∈ frags, x ∈ f.atoms.map Prod.fst) ↔
        (x ∈ m.atoms.map Prod.fst ∧ x ≠ aid)) ∧
      (∀ f ∈ frags, ∀ x ∈ f.atoms.map Prod.fst, x ∉ home.atoms.map Prod.fst) ∧
      List.Pairwise
        (fun f g => ∀ x ∈ f.atoms.map Prod.fst, x ∉ g.atoms.map Prod.fst) frags ∧
      (home.atoms.map Prod.fst).Nodup ∧
      (∀ f ∈ frags, (f.atoms.map Prod.fst).Nodup) ∧
      (∀ f ∈ frags, f.atoms ≠ []) := by
  have hkA : ∀ x, x ∈ (eraseKey aid m.atoms).map Prod.fst ↔
      x ∈ m.atoms.map Prod.fst ∧ x ≠ aid := fun x => keys_eraseKey_mem aid x m.atoms
  set m₂ : Molecule :=
    { atoms := eraseKey aid m.atoms,
      bonds := m.bonds.filter (fun p => p.1 ∉ (attachedIn m.bonds aid).map Prod.fst),
      position := m.position } with hm₂def
  set conn : List AtomId := (neighborsOf m.bonds aid).filter (fun a => a ≠ aid)
    with hconndef
  have hm₂bonds : ∀ p ∈ m₂.bonds, p ∈ m.bonds ∧ p.2.start ≠ aid ∧ p.2.end' ≠ aid := by
    intro p hp
    rw [hm₂def] at hp
    simp only [List.mem_filter, decide_eq_true_eq] at hp
    refine ⟨hp.1, ?_, ?_⟩ <;> intro hpe
    · exact hp.2 (List.mem_map_of_mem _
        (List.mem_filter.mpr ⟨hp.1, by simp [hpe]⟩))
    · exact hp.2 (List.mem_map_of_mem _
        (List.mem_filter.mpr ⟨hp.1, by simp [hpe]⟩))
  have hend₂ : ∀ x ∈ bondEndpointAtoms m₂.bonds, x ∈ m₂.atoms.map Prod.fst := by
    intro x hx
    simp only [bondEndpointAtoms, List.mem_flatMap] at hx
    obtain ⟨p, hp, hxp⟩ := hx
    obtain ⟨hpm, hs, he⟩ := hm₂bonds p hp
    have hxm : x ∈ m.atoms.map Prod.fst :=
      wf_endpoint_mem hWF (by
        simp only [bondEndpointAtoms, List.mem_flatMap]
        exact ⟨p, hpm, hxp⟩)
    have hxne : x ≠ aid := by
      simp only [Bond.atomIds, List.mem_cons, List.not_mem_nil, or_false] at hxp
      rcases hxp with rfl | rfl
      · exact hs
      · exact he
    show x ∈ (eraseKey aid m.atoms).map Prod.fst
    exact (hkA x).mpr ⟨hxm, hxne⟩
  have hconn₂ : ∀ c ∈ conn, c ∈ m₂.atoms.map Prod.fst := by
    intro c hc
    rw [hconndef] at hc
    rw [List.mem_filter] at hc
    have hcm : c ∈ m.atoms.map Prod.fst :=
      wf_endpoint_mem hWF (mem_neighborsOf_endpoints hc.1)
    show c ∈ (eraseKey aid m.atoms).map Prod.fst
    exact (hkA c).mpr ⟨hcm, by simpa using hc.2⟩
  obtain ⟨m₃, hud, hkeys₃, hbonds₃, _⟩ := updateDirections_ok conn m₂ hend₂ hconn₂
  have hend₃ : ∀ x ∈ bondEndpointAtoms m₃.bonds, x ∈ m₃.atoms.map Prod.fst := by
    intro x hx
    rw [hkeys₃]
    exact hend₂ x (by rwa [hbonds₃] at hx)
  have hconn₃ : ∀ c ∈ conn, c ∈ m₃.atoms.map Prod.fst := by
    intro c hc
    rw [hkeys₃]
    exact hconn₂ c hc
  have hnd₃ : (m₃.atoms.map Prod.fst).Nodup := by
    rw [hkeys₃]
    exact keys_eraseKey_nodup aid m.atoms hWF.1
  obtain ⟨home, frags, hsp, hpart, hdisj, hpw, hndh, hndf, hnef, _, _, _⟩ :=
    split_fragments_spec m₃ conn hend₃ hconn₃ hnd₃
  refine ⟨home, frags, ?_, ?_, hdisj, hpw, hndh, hndf, hnef⟩
  · simp only [Molecule.delete_atom, hla, Molecule.attached_bonds,
      Molecule.get_directly_connected]
    rw [← hm₂def, ← hconndef, hud]
    exact hsp
  · intro x
    rw [hpart x, hkeys₃]
    exact hkA x

theorem delete_bond_spec (m : Molecule) (bid : BondId) (b : Bond)
    (hWF : m.WF) (hlb : lookupKV bid m.bonds = some b) :
    ∃ home frags, m.delete_bond bid = .ok (home, frags) ∧
      (∀ x, (x ∈ home.atoms.map Prod.fst ∨ ∃ f ∈ frags, x ∈ f.atoms.map Prod.fst) ↔
        x ∈ m.atoms.map Prod.fst) ∧
      (∀ f ∈ frags, ∀ x ∈ f.atoms.map Prod.fst, x ∉ home.atoms.map Prod.fst) ∧
      List.Pairwise
        (fun f g => ∀ x ∈ f.atoms.map Prod.fst, x ∉ g.atoms.map Prod.fst) frags ∧
      (home.atoms.map Prod.fst).Nodup ∧
      (∀ f ∈ frags, (f.atoms.map Prod.fst).Nodup) ∧
      (∀ f ∈ frags, f.atoms ≠ []) ∧
      (m.atoms ≠ [] → home.atoms ≠ []) := by
  set m₁ : Molecule := { m with bonds := eraseKey bid m.bonds } with hm₁def
  have hm₁bonds : ∀ p ∈ m₁.bonds, p ∈ m.bonds := by
    intro p hp
    rw [hm₁def] at hp
    exact List.mem_of_mem_filter hp
  have hend₁ : ∀ x ∈ bondEndpointAtoms m₁.bonds, x ∈ m₁.atoms.map Prod.fst := by
    intro x hx
    simp only [bondEndpointAtoms, List.mem_flatMap] at hx
    obtain ⟨p, hp, hxp⟩ := hx
    exact wf_endpoint_mem hWF (by
      simp only [bondEndpointAtoms, List.mem_flatMap]
      exact ⟨p, hm₁bonds p hp, hxp⟩)
  have hidm : ∀ c ∈ b.atomIds, c ∈ m₁.atoms.map Prod.fst := by
    intro c hc
    have hbm : (bid, b) ∈ m.bonds := lookupKV_eq_some_mem hlb
    obtain ⟨h1, h2⟩ := hWF.2.2 (bid, b) hbm
    simp only [Bond.atomIds, List.mem_cons, List.not_mem_nil, or_false] at hc
    rcases hc with rfl | rfl
    · exact (lookupKV_isSome_iff _ _).mp h1
    · exact (lookupKV_isSome_iff _ _).mp h2
  obtain ⟨m₂, hud, hkeys₂, hbonds₂, _⟩ := updateDirections_ok b.atomIds m₁ hend₁ hidm
  have hend₃ : ∀ x ∈ bondEndpointAtoms m₂.bonds, x ∈ m₂.atoms.map Prod.fst := by
    intro x hx
    rw [hkeys₂]
    exact hend₁ x (by rwa [hbonds₂] at hx)
  have hid₃ : ∀ c ∈ b.atomIds, c ∈ m₂.atoms.map Prod.fst := by
    intro c hc
    rw [hkeys₂]
    exact hidm c hc
  have hnd₃ : (m₂.atoms.map Prod.fst).Nodup := by
    rw [hkeys₂]
    exact hWF.1
  obtain ⟨home, frags, hsp, hpart, hdisj, hpw, hndh, hndf, hnef, _, _, hhne⟩ :=
    split_fragments_spec m₂ b.atomIds hend₃ hid₃ hnd₃
  refine ⟨home, frags, ?_, ?_, hdisj, hpw, hndh, hndf, hnef, ?_⟩
  · simp only [Molecule.delete_bond, hlb]
    rw [← hm₁def, hud]
    exact hsp
  · intro x
    rw [hpart x, hkeys₂]
  · intro hmne
    refine hhne ?_
    intro h₂e
    have : m₂.atoms.map Prod.fst = [] := by rw [h₂e]; rfl
    rw [hkeys₂] at this
    have hm : m.atoms.map Prod.fst = [] := this
    rcases hx : m.atoms with _ | ⟨p, l⟩
    · exact hmne hx
    · rw [hx] at hm
      simp at hm

/-! ### Document-state lemmas -/

theorem insertKV_mem {α : Type} (k : ℕ) (v : α) (l : List (ℕ × α)) :
    ∀ q ∈ (insertKV k v l).2, q ∈ l ∨ q = (k, v) := by
  intro q hq
  unfold insertKV at hq
  rcases hl : lookupKV k l with _ | old
  · rw [hl] at hq
    rcases List.mem_append.mp hq with h | h
    · exact Or.inl h
    · exact Or.inr (List.mem_singleton.mp h)
  · rw [hl] at hq
    obtain ⟨p, hp, hq'⟩ := List.mem_map.mp hq
    by_cases hpk : p.1 = k
    · rw [if_pos hpk] at hq'
      exact Or.inr hq'.symm
    · rw [if_neg hpk] at hq'
      exact Or.inl (hq' ▸ hp)

theorem lookupKV_map_replace {α : Type} (mid : ℕ) (home : α) :
    ∀ (l : List (ℕ × α)), (lookupKV mid l).isSome →
      lookupKV mid (l.map (fun p => if p.1 = mid then (p.1, home) else p)) = some home := by
  intro l
  induction l with
  | nil => intro h; simp [lookupKV] at h
  | cons p rest ih =>
      obtain ⟨k, v⟩ := p
      intro h
      by_cases hpk : k = mid
      · subst hpk
        rw [List.map_cons]
        rw [show (if ((k, v) : ℕ × α).1 = k then (((k, v) : ℕ × α).1, home) else (k, v))
            = (k, home) by simp]
        simp [lookupKV]
      · have h' : (lookupKV mid rest).isSome := by
          rw [show lookupKV mid ((k, v) :: rest) = lookupKV mid rest by
            simp only [lookupKV, if_neg (Ne.symm hpk)]] at h
          exact h
        rw [List.map_cons]
        rw [show (if ((k, v) : ℕ × α).1 = mid then (((k, v) : ℕ × α).1, home) else (k, v))
            = (k, v) by simp [hpk]]
        rw [show lookupKV mid ((k, v) ::
              rest.map (fun p => if p.1 = mid then (p.1, home) else p))
            = lookupKV mid (rest.map (fun p => if p.1 = mid then (p.1, home) else p)) by
          simp only [lookupKV, if_neg (Ne.symm hpk)]]
        exact ih h'

theorem map_replace_mem {α : Type} (mid : ℕ) (home : α) (l : List (ℕ × α)) :
    ∀ q ∈ l.map (fun p => if p.1 = mid then (p.1, home) else p),
      q ∈ l ∨ q = (mid, home) := by
  intro q hq
  obtain ⟨p, hp, hq'⟩ := List.mem_map.mp hq
  by_cases hpk : p.1 = mid
  · rw [if_pos hpk] at hq'
    right
    rw [← hq', hpk]
  · rw [if_neg hpk] at hq'
    exact Or.inl (hq' ▸ hp)

theorem remove_molecule_sel (s : DocState) (mid : MoleculeId) :
    (s.remove_molecule mid).1.selection = [] := by
  simp only [DocState.remove_molecule]
  split <;> rfl

theorem remove_molecule_ok_molecules (s : DocState) (mid : MoleculeId)
    (s' : DocState) (m' : Molecule) (h : s.remove_molecule mid = (s', .ok m')) :
    s'.molecules = eraseKey mid s.molecules := by
  simp only [DocState.remove_molecule] at h
  split at h
  · exact absurd (congrArg Prod.snd h) (by simp)
  · have h1 : ({ molecules := eraseKey mid s.molecules, selection := [] } : DocState)
        = s' := congrArg Prod.fst h
    rw [← h1]

theorem takeAtoms_keys_of_ok : ∀ (ids : List AtomId) (cur taken rem : List (AtomId × Atom)),
    takeAtoms cur ids = .ok (taken, rem) → taken.map Prod.fst = ids := by
  intro ids
  induction ids with
  | nil =>
      intro cur taken rem h
      simp only [takeAtoms, Except.ok.injEq, Prod.mk.injEq] at h
      rw [← h.1]
      rfl
  | cons a rest ih =>
      intro cur taken rem h
      simp only [takeAtoms] at h
      rcases hl : lookupKV a cur with _ | atom
      · rw [hl] at h
        exact absurd h (by simp)
      · rw [hl] at h
        rcases ht : takeAtoms (eraseKey a cur) rest with e | ⟨taken', rem'⟩
        · rw [ht] at h
          exact absurd h (by simp)
        · rw [ht] at h
          have h' := Except.ok.inj h
          have h1 : (a, atom) :: taken' = taken := congrArg Prod.fst h'
          rw [← h1]
          simp [ih _ _ _ ht]

theorem extractFragment_keys_of_ok (m : Molecule) (s : List AtomId)
    (m' frag : Molecule) (h : m.extractFragment s = .ok (m', frag)) :
    frag.atoms.map Prod.fst = s := by
  simp only [Molecule.extractFragment] at h
  rcases ht : takeAtoms m.atoms s with e | ⟨taken, rem⟩
  · rw [ht] at h
    exact absurd h (by simp)
  · rw [ht] at h
    have h' := Except.ok.inj h
    have h2 : taken = frag.atoms := congrArg (fun z => z.2.atoms) h'
    rw [← h2]
    exact takeAtoms_keys_of_ok s m.atoms taken rem ht

theorem extractAll_frags_of_ok : ∀ (sets : List (List AtomId)) (m m'' : Molecule)
    (frags : List Molecule), m.extractAll sets = .ok (m'', frags) →
    ∀ f ∈ frags, ∃ st ∈ sets, f.atoms.map Prod.fst = st := by
  intro sets
  induction sets with
  | nil =>
      intro m m'' frags h f hf
      simp only [Molecule.extractAll] at h
      have h2 : ([] : List Molecule) = frags := congrArg Prod.snd (Except.ok.inj h)
      rw [← h2] at hf
      simp at hf
  | cons st rest ih =>
      intro m m'' frags h f hf
      simp only [Molecule.extractAll] at h
      split at h
      · exact absurd h (by simp)
      · rename_i m' frag he
        split at h
        · exact absurd h (by simp)
        · rename_i m₃ frags' ha
          have h2 : frag :: frags' = frags := congrArg Prod.snd (Except.ok.inj h)
          rw [← h2] at hf
          rcases List.mem_cons.mp hf with rfl | hf'
          · exact ⟨st, List.mem_cons_self _ _,
              extractFragment_keys_of_ok m st m' f he⟩
          · obtain ⟨t, htm, hfk⟩ := ih m' m₃ frags' ha f hf'
            exact ⟨t, List.mem_cons_of_mem _ htm, hfk⟩

theorem split_frags_nonempty_of_ok (m : Molecule) (ids : List AtomId)
    (home : Molecule) (frags : List Molecule)
    (h : m.split_fragments ids = .ok (home, frags)) :
    ∀ f ∈ frags, f.atoms ≠ [] := by
  intro f hf
  simp only [Molecule.split_fragments] at h
  by_cases hlen : (collectUnique (ids.map m.get_connected) [] []).length < 2
  · rw [if_pos hlen] at h
    have h2 : ([] : List Molecule) = frags := congrArg Prod.snd (Except.ok.inj h)
    rw [← h2] at hf
    simp at hf
  · rw [if_neg hlen] at h
    obtain ⟨st, hst, hfk⟩ := extractAll_frags_of_ok _ _ _ _ h f hf
    obtain ⟨newSets, hcu, hprops, _⟩ := collectUnique_spec (ids.map m.get_connected) [] []
    rw [List.nil_append] at hcu
    rw [hcu] at hst
    have hne := (hprops st (List.mem_of_mem_drop hst)).2.1
    intro hfe
    rw [hfe] at hfk
    exact hne hfk.symm

theorem delete_atom_frags_nonempty (m : Molecule) (aid : AtomId)
    (home : Molecule) (frags : List Molecule)
    (h : m.delete_atom aid = .ok (home, frags)) :
    ∀ f ∈ frags, f.atoms ≠ [] := by
  simp only [Molecule.delete_atom] at h
  split at h
  · exact absurd h (by simp)
  · split at h
    · exact absurd h (by simp)
    · exact split_frags_nonempty_of_ok _ _ home frags h

theorem delete_bond_frags_nonempty (m : Molecule) (bid : BondId)
    (home : Molecule) (frags : List Molecule)
    (h : m.delete_bond bid = .ok (home, frags)) :
    ∀ f ∈ frags, f.atoms ≠ [] := by
  simp only [Molecule.delete_bond] at h
  split at h
  · exact absurd h (by simp)
  · split at h
    · exact absurd h (by simp)
    · exact split_frags_nonempty_of_ok _ _ home frags h

theorem insertDetachedLoop_members (fresh : ℕ → MoleculeId) :
    ∀ (ds : List Molecule) (i : ℕ) (mols out : List (MoleculeId × Molecule))
      (r : Except MolError Unit),
      DocState.insertDetachedLoop fresh i ds mols = (out, r) →
      ∀ q ∈ out, q ∈ mols ∨ q.2 ∈ ds := by
  intro ds
  induction ds with
  | nil =>
      intro i mols out r h q hq
      simp only [DocState.insertDetachedLoop] at h
      cases h
      exact Or.inl hq
  | cons d rest ih =>
      intro i mols out r h q hq
      simp only [DocState.insertDetachedLoop] at h
      split at h
      · rename_i prev mols' hi
        rcases ih (i + 1) mols' out r h q hq with h' | h'
        · rcases insertKV_mem (fresh i) d mols q (by rw [hi]; exact h') with h'' | h''
          · exact Or.inl h''
          · exact Or.inr (by rw [h'']; exact List.mem_cons_self _ _)
        · exact Or.inr (List.mem_cons_of_mem _ h')
      · rename_i mols' hi
        injection h with h1 h2
        subst h1
        rcases insertKV_mem (fresh i) d mols q (by rw [hi]; exact hq) with h' | h'
        · exact Or.inl h'
        · exact Or.inr (by rw [h']; exact List.mem_cons_self _ _)

theorem insertPlainLoop_members (fresh : ℕ → MoleculeId) :
    ∀ (ds : List Molecule) (i : ℕ) (mols : List (MoleculeId × Molecule)),
      ∀ q ∈ DocState.insertPlainLoop fresh i ds mols, q ∈ mols ∨ q.2 ∈ ds := by
  intro ds
  induction ds with
  | nil =>
      intro i mols q hq
      exact Or.inl hq
  | cons d rest ih =>
      intro i mols q hq
      simp only [DocState.insertPlainLoop] at hq
      rcases ih (i + 1) (insertKV (fresh i) d mols).2 q hq with h' | h'
      · rcases insertKV_mem (fresh i) d mols q h' with h'' | h''
        · exact Or.inl h''
        · exact Or.inr (by rw [h'']; exact List.mem_cons_self _ _)
      · exact Or.inr (List.mem_cons_of_mem _ h')

theorem mem_eraseKey {α : Type} (k : ℕ) (l : List (ℕ × α)) :
    ∀ q ∈ eraseKey k l, q ∈ l := by
  intro q hq
  exact List.mem_of_mem_filter hq

theorem mem_eraseKey_key {α : Type} (k : ℕ) (l : List (ℕ × α)) :
    ∀ q ∈ eraseKey k l, q.1 ≠ k := by
  intro q hq
  have := List.of_mem_filter hq
  simpa using this

theorem lookupKV_map_modify {α : Type} (k : ℕ) (g : α → α) :
    ∀ (l : List (ℕ × α)) (v : α), lookupKV k l = some v →
      lookupKV k (l.map (fun p => if p.1 = k then (p.1, g p.2) else p)) = some (g v) := by
  intro l
  induction l with
  | nil => intro v h; simp [lookupKV] at h
  | cons p rest ih =>
      obtain ⟨a, w⟩ := p
      intro v h
      by_cases hpk : a = k
      · subst hpk
        rw [show lookupKV a ((a, w) :: rest) = some w by simp [lookupKV]] at h
        have hv : w = v := Option.some.inj h
        rw [List.map_cons]
        rw [show (if ((a, w) : ℕ × α).1 = a then
              (((a, w) : ℕ × α).1, g ((a, w) : ℕ × α).2) else (a, w)) = (a, g w) by simp]
        rw [show lookupKV a ((a, g w) ::
              rest.map (fun p => if p.1 = a then (p.1, g p.2) else p)) = some (g w) by
          simp [lookupKV]]
        rw [hv]
      · have h' : lookupKV k rest = some v := by
          rw [show lookupKV k ((a, w) :: rest) = lookupKV k rest by
            simp only [lookupKV, if_neg (Ne.symm hpk)]] at h
          exact h
        rw [List.map_cons]
        rw [show (if ((a, w) : ℕ × α).1 = k then
              (((a, w) : ℕ × α).1, g ((a, w) : ℕ × α).2) else (a, w)) = (a, w) by
          simp [hpk]]
        rw [show lookupKV k ((a, w) ::
              rest.map (fun p => if p.1 = k then (p.1, g p.2) else p))
            = lookupKV k (rest.map (fun p => if p.1 = k then (p.1, g p.2) else p)) by
          simp only [lookupKV, if_neg (Ne.symm hpk)]]
        exact ih v h'

theorem remove_molecule_err_molecules (s : DocState) (mid : MoleculeId)
    (s' : DocState) (e : MolError) (h : s.remove_molecule mid = (s', .error e)) :
    s'.molecules = s.molecules := by
  simp only [DocState.remove_molecule] at h
  split at h
  · injection h with h1 h2
    rw [← h1]
  · exact absurd (congrArg Prod.snd h) (by simp)

theorem delete_bond_home_nonempty (m : Molecule) (bid : BondId)
    (home : Molecule) (frags : List Molecule) (hWF : m.WF) (hne : m.atoms ≠ [])
    (h : m.delete_bond bid = .ok (home, frags)) : home.atoms ≠ [] := by
  rcases hl : lookupKV bid m.bonds with _ | b
  · rw [show m.delete_bond bid = .error (.BondMissing bid) by
      simp only [Molecule.delete_bond]; rw [hl]] at h
    exact absurd h (by simp)
  · obtain ⟨home', frags', heq, _, _, _, _, _, _, hh⟩ :=
      delete_bond_spec m bid b hWF hl
    rw [heq] at h
    have h2 : home' = home := congrArg Prod.fst (Except.ok.inj h)
    rw [← h2]
    exact hh hne

theorem single_atom_delete (mol : Molecule) (aid : AtomId) (a : Atom)
    (hatoms : mol.atoms = [(aid, a)]) (hWF : mol.WF) :
    ∃ home, mol.delete_atom aid = .ok (home, []) ∧ home.atoms = [] := by
  have hla : lookupKV aid mol.atoms = some a := by rw [hatoms]; simp [lookupKV]
  obtain ⟨home, frags, hdel, hpart, hdisj, hpw, hndh, hndf, hnef⟩ :=
    delete_atom_spec mol aid a hWF hla
  have hkeysmol : mol.atoms.map Prod.fst = [aid] := by rw [hatoms]; rfl
  have hhomekeys : home.atoms.map Prod.fst = [] := by
    rcases hk : home.atoms.map Prod.fst with _ | ⟨x, t⟩
    · rfl
    · exfalso
      have hx : x ∈ home.atoms.map Prod.fst := by rw [hk]; exact List.mem_cons_self _ _
      have hxx := (hpart x).mp (Or.inl hx)
      rw [hkeysmol] at hxx
      obtain ⟨hmem, hne⟩ := hxx
      simp only [List.mem_singleton] at hmem
      exact hne hmem
  have hhomeatoms : home.atoms = [] := by
    rcases ha : home.atoms with _ | ⟨p, t⟩
    · rfl
    · exfalso
      rw [ha] at hhomekeys
      simp at hhomekeys
  have hfrags : frags = [] := by
    rcases hf : frags with _ | ⟨f, fs⟩
    · rfl
    · exfalso
      have hfmem : f ∈ frags := by rw [hf]; exact List.mem_cons_self _ _
      have hfne := hnef f hfmem
      rcases hfa : f.atoms with _ | ⟨q, t⟩
      · exact hfne hfa
      · have hx : q.1 ∈ f.atoms.map Prod.fst := by rw [hfa]; simp
        have hxx := (hpart q.1).mp (Or.inr ⟨f, hfmem, hx⟩)
        rw [hkeysmol] at hxx
        obtain ⟨hmem, hne⟩ := hxx
        simp only [List.mem_singleton] at hmem
        exact hne hmem
  exact ⟨home, by rw [← hfrags]; exact hdel, hhomeatoms⟩

theorem remove_molecule_noempty (s : DocState) (mid : MoleculeId)
    (hs : s.NoEmpty) : (s.remove_molecule mid).1.NoEmpty := by
  intro q hq
  simp only [DocState.remove_molecule] at hq
  split at hq
  · exact hs q hq
  · exact hs q (mem_eraseKey mid s.molecules q hq)

theorem add_molecule_noempty (s : DocState) (mid : MoleculeId) (aid : AtomId)
    (label : String) (position : Vec2) (hs : s.NoEmpty) :
    (s.add_molecule_with_atom mid aid label position).1.NoEmpty := by
  intro q hq
  simp only [DocState.add_molecule_with_atom] at hq
  split at hq
  · rename_i prev mols hi
    rcases insertKV_mem mid (Molecule.new position aid label) s.molecules q
        (by rw [hi]; exact hq) with h' | h'
    · exact hs q h'
    · rw [h']
      simp [Molecule.new]
  · rename_i mols hi
    rcases insertKV_mem mid (Molecule.new position aid label) s.molecules q
        (by rw [hi]; exact hq) with h' | h'
    · exact hs q h'
    · rw [h']
      simp [Molecule.new]

theorem delete_atom_noempty (s : DocState) (mid : MoleculeId) (aid : AtomId)
    (fresh : ℕ → MoleculeId) (s' : DocState) (hs : s.NoEmpty)
    (h : s.delete_atom mid aid fresh = (s', Except.ok ())) : s'.NoEmpty := by
  simp only [DocState.delete_atom] at h
  split at h
  · injection h with h1 h2
    exact absurd h2 (by simp)
  · rename_i mol hmol
    split at h
    · injection h with h1 h2
      exact absurd h2 (by simp)
    · rename_i home detached hdel
      have hfrags : ∀ f ∈ detached, f.atoms ≠ [] :=
        delete_atom_frags_nonempty mol aid home detached hdel
      split at h
      · injection h with h1 h2
        exact absurd h2 (by simp)
      · rename_i s₄ u heq4
        split at h
        · rename_i mols u' hil
          injection h with h1 h2
          have hs₄ : ∀ q ∈ s₄.molecules, q.2.atoms ≠ [] := by
            split at heq4
            · split at heq4
              · rename_i mrem hrm
                injection heq4 with h41 h42
                subst h41
                intro q hq
                rw [remove_molecule_ok_molecules _ mid _ mrem hrm] at hq
                have hq1 := mem_eraseKey mid _ q hq
                have hq2 := mem_eraseKey_key mid _ q hq
                rcases map_replace_mem mid home _ q hq1 with h' | h'
                · exact hs q h'
                · rw [h'] at hq2
                  exact absurd rfl hq2
              · rename_i e hrm
                injection heq4 with h41 h42
                exact absurd h42 (by simp)
            · rename_i hemp
              injection heq4 with h41 h42
              intro q hq
              rw [← h41] at hq
              rcases map_replace_mem mid home _ q hq with h' | h'
              · exact hs q h'
              · rw [h']
                intro hcon
                have hcon' : home.atoms = [] := hcon
                exact hemp (by simp [Molecule.is_empty, hcon'])
          intro q hq
          rw [← h1] at hq
          rcases insertDetachedLoop_members fresh detached 0 s₄.molecules mols
              (.ok u') hil q hq with h' | h'
          · exact hs₄ q h'
          · exact hfrags q.2 h'
        · rename_i mols e hil
          injection h with h1 h2
          exact absurd h2 (by simp)

theorem delete_bond_noempty (s : DocState) (mid : MoleculeId) (bid : BondId)
    (fresh : ℕ → MoleculeId) (s' : DocState) (hs : s.NoEmpty)
    (hwf : ∀ p ∈ s.molecules, p.2.WF)
    (h : s.delete_bond mid bid fresh = (s', Except.ok ())) : s'.NoEmpty := by
  simp only [DocState.delete_bond] at h
  split at h
  · injection h with h1 h2
    exact absurd h2 (by simp)
  · rename_i mol hmol
    split at h
    · injection h with h1 h2
      exact absurd h2 (by simp)
    · rename_i home detached hdel
      have hmem : (mid, mol) ∈ s.molecules := lookupKV_eq_some_mem hmol
      have hfrags : ∀ f ∈ detached, f.atoms ≠ [] :=
        delete_bond_frags_nonempty mol bid home detached hdel
      have hhome : home.atoms ≠ [] :=
        delete_bond_home_nonempty mol bid home detached (hwf _ hmem) (hs _ hmem) hdel
      injection h with h1 h2
      intro q hq
      rw [← h1] at hq
      rcases insertPlainLoop_members fresh detached 0 _ q hq with h' | h'
      · rcases map_replace_mem mid home _ q h' with h'' | h''
        · exact hs q h''
        · rw [h'']
          exact hhome
      · exact hfrags q.2 h'

theorem delete_atom_single (s : DocState) (mid : MoleculeId) (aid : AtomId)
    (a : Atom) (mol : Molecule) (fresh : ℕ → MoleculeId)
    (hmol : lookupKV mid s.molecules = some mol)
    (hatoms : mol.atoms = [(aid, a)]) (hWF : mol.WF) :
    ∃ s', s.delete_atom mid aid fresh = (s', Except.ok ()) ∧
      lookupKV mid s'.molecules = none := by
  obtain ⟨home, hdel, hhe⟩ := single_atom_delete mol aid a hatoms hWF
  have hemp : home.is_empty = true := by simp [Molecule.is_empty, hhe]
  have hlook₂ : lookupKV mid
      (s.molecules.map (fun p => if p.1 = mid then (p.1, home) else p)) = some home :=
    lookupKV_map_replace mid home s.molecules (by rw [hmol]; rfl)
  refine ⟨⟨eraseKey mid
      (s.molecules.map (fun p => if p.1 = mid then (p.1, home) else p)), []⟩,
    ?_, lookupKV_eraseKey_self mid _⟩
  simp only [DocState.delete_atom, hmol, hdel, hemp, DocState.remove_molecule,
    hlook₂, DocState.insertDetachedLoop, if_true]

theorem step4_sel (s₂ : DocState) (mid : MoleculeId) (c : Bool)
    (p : DocState × Except MolError Unit) (hs₂ : s₂.selection = [])
    (h : (if c then
            match s₂.remove_molecule mid with
            | (s₃, .ok _) => (s₃, Except.ok ())
            | (s₃, .error e) => (s₃, Except.error e)
          else (s₂, Except.ok ())) = p) :
    p.1.selection = [] := by
  rw [← h]
  split
  · split
    · rename_i s₃ m hrm
      have hsel := remove_molecule_sel s₂ mid
      rw [hrm] at hsel
      exact hsel
    · rename_i s₃ e hrm
      have hsel := remove_molecule_sel s₂ mid
      rw [hrm] at hsel
      exact hsel
  · exact hs₂

theorem delete_atom_sel (s : DocState) (mid : MoleculeId) (aid : AtomId)
    (fresh : ℕ → MoleculeId) : (s.delete_atom mid aid fresh).1.selection = [] := by
  simp only [DocState.delete_atom]
  split
  · rfl
  · split
    · rfl
    · rename_i home detached hdel
      split
      · rename_i s₄ e heq4
        exact step4_sel _ mid home.is_empty _ rfl heq4
      · rename_i s₄ u heq4
        split
        · show s₄.selection = []
          exact step4_sel _ mid home.is_empty _ rfl heq4
        · show s₄.selection = []
          exact step4_sel _ mid home.is_empty _ rfl heq4

theorem delete_bond_sel (s : DocState) (mid : MoleculeId) (bid : BondId)
    (fresh : ℕ → MoleculeId) : (s.delete_bond mid bid fresh).1.selection = [] := by
  simp only [DocState.delete_bond]
  split
  · rfl
  · split
    · rfl
    · rfl

/-- C3: `Bounds::union` is claimed to return the axis-aligned bounding
rectangle whose minimum corner is the component-wise minimum and whose
maximum corner is the component-wise maximum over all 8 world-space
corners, independently per axis.  The `if/else-if` chain in
`expand_bounds` violates this (and the doc comment on `union`, which
promises the smallest axis-aligned rectangle containing both boxes): for
the unit square `cexA3` and the rotated box `cexB3`, corner (-10,-10) is
simultaneously a strict x- and y-minimum at its processing step, so only
the x-minimum is updated, and the tracked y-minimum never reaches -10.
The returned box has minimum corner (-14,-6); the component-wise minimum
over all 8 corners is (-14,-10), and corner (-10,-10) of `cexB3` lies
outside the returned rectangle. -/
theorem union_else_if_defect :
    Bounds.union cexA3 cexB3 = Bounds.fromRect ⟨-14, -6⟩ ⟨15, 7⟩ ∧
    aabbOfPoints (cexA3.points ++ cexB3.points) =
      Bounds.fromRect ⟨-14, -10⟩ ⟨15, 11⟩ ∧
    Bounds.union cexA3 cexB3 ≠ aabbOfPoints (cexA3.points ++ cexB3.points) ∧
    (⟨-10, -10⟩ : Vec2) ∈ cexB3.points ∧
    ((-10 : ℚ) < (Bounds.union cexA3 cexB3).offset.y) := by
  refine ⟨?_, ?_, ?_, ?_, ?_⟩ <;>
    norm_num [Bounds.union, aabbOfPoints, cexA3, cexB3, Bounds.points,
      Bounds.fromRect, Bounds.transformPoint, Bounds.expandBounds,
      Bounds.mk.injEq, Vec2.mk.injEq, Size2.mk.injEq]

/-- C4 counterexample: for the rotated box `cexA4`, `union(A, A)` is the
axis-aligned box from (-4,0) of size 7×7, which differs from `A` (size
5×5, rotated) by far more than floating-point epsilon: neither the size
nor the corner list agree. -/
theorem union_self_rotated_ne :
    Bounds.union cexA4 cexA4 = (⟨⟨-4, 0⟩, ⟨7, 7⟩, ⟨1, 0⟩⟩ : Bounds) ∧
    cexA4.size = ⟨5, 5⟩ ∧
    (Bounds.union cexA4 cexA4).size ≠ cexA4.size ∧
    (Bounds.union cexA4 cexA4).points ≠ cexA4.points := by
  refine ⟨?_, ?_, ?_, ?_⟩ <;>
    norm_num [Bounds.union, cexA4, Bounds.points, Bounds.fromRect,
      Bounds.transformPoint, Bounds.expandBounds,
      Bounds.mk.injEq, Vec2.mk.injEq, Size2.mk.injEq]

/-- C4 (amended): for every axis-aligned `Bounds` `A` (rotation zero,
non-negative size), `union(A, A) = A` exactly. -/
theorem union_self_axis_aligned (pos : Vec2) (sz : Size2)
    (hw : 0 ≤ sz.w) (hh : 0 ≤ sz.h) :
    Bounds.union (Bounds.fromRect pos sz) (Bounds.fromRect pos sz) =
      Bounds.fromRect pos sz := by
  obtain ⟨ox, oy⟩ := pos
  obtain ⟨w, h⟩ := sz
  rw [Bounds.union, points_fromRect]
  simp only [List.append_eq, List.cons_append, List.nil_append, List.headI, List.drop]
  rw [foldl_expand_rect ox oy w h hw hh]
  simp only [Bounds.fromRect, Bounds.mk.injEq, Size2.mk.injEq]
  norm_num

/-- Witness for `union_self_axis_aligned` at a concrete box. -/
theorem union_self_axis_aligned_witness :
    Bounds.union (Bounds.fromRect ⟨1, 2⟩ ⟨3, 4⟩) (Bounds.fromRect ⟨1, 2⟩ ⟨3, 4⟩) =
      Bounds.fromRect ⟨1, 2⟩ ⟨3, 4⟩ :=
  union_self_axis_aligned ⟨1, 2⟩ ⟨3, 4⟩ (by norm_num) (by norm_num)

/-- C2 counterexample: exactly the scenario of the claim (Δy = +30,
initial scale 1.0, zero pan) with the cursor 30 presentation units right
of the canvas centre (canvas 200×200, cursor at (130,100)).  The new
scale is 2.0 and the recomputed pan is (-30,0), but the world point under
the cursor moves from (30,0) to (45,0): the projection is *not*
invariant.  (It is invariant only for a cursor at the canvas centre; the
update divides by `old_scaling²` where exact invariance needs
`old_scaling * new_scaling`.) -/
theorem zoom_cursor_world_point_moves :
    handle_scrolling 30 1 ⟨0, 0⟩ (some ⟨30, 0⟩) = some (2, some ⟨-30, 0⟩) ∧
    project 1 ⟨0, 0⟩ ⟨200, 200⟩ ⟨130, 100⟩ = ⟨30, 0⟩ ∧
    project 2 ⟨-30, 0⟩ ⟨200, 200⟩ ⟨130, 100⟩ = ⟨45, 0⟩ ∧
    project 2 ⟨-30, 0⟩ ⟨200, 200⟩ ⟨130, 100⟩ ≠
      project 1 ⟨0, 0⟩ ⟨200, 200⟩ ⟨130, 100⟩ := by
  refine ⟨?_, ?_, ?_, ?_⟩ <;>
    norm_num [handle_scrolling, newScalingOf, newTranslationOf, clampQ,
      project, visibleRegionOrigin, MIN_SCALING, MAX_SCALING, Vec2.mk.injEq]

/-- C2 (amended): for a wheel-scroll step taken with the cursor over the
canvas (guard passes, current scale positive), the new scale is the old
scale times `1 + Δy/30` clamped to [0.1, 5.0], and the recomputed pan
translation keeps the world point under the cursor invariant **iff** the
cursor sits at the canvas centre. -/
theorem zoom_world_point_invariant_iff_center
    (y s : ℚ) (t u : Vec2) (sz : Size2) (p : Vec2)
    (hs : 0 < s)
    (hguard : (y < 0 ∧ s > MIN_SCALING) ∨ (y > 0 ∧ s < MAX_SCALING))
    (hux : u.x = p.x - sz.w / 2) (huy : u.y = p.y - sz.h / 2) :
    handle_scrolling y s t (some u) =
      some (newScalingOf y s, some (newTranslationOf y s t u)) ∧
    newScalingOf y s ≠ s ∧
    (project (newScalingOf y s) (newTranslationOf y s t u) sz p = project s t sz p
      ↔ u = ⟨0, 0⟩) := by
  have hs' : 0 < newScalingOf y s := by
    unfold newScalingOf clampQ MIN_SCALING MAX_SCALING
    split_ifs with h1 h2 <;> [norm_num; norm_num; linarith [not_lt.mp h1]]
  have hne : newScalingOf y s ≠ s := by
    unfold newScalingOf clampQ MIN_SCALING MAX_SCALING
    rcases hguard with ⟨hy, hsc⟩ | ⟨hy, hsc⟩
    · have hv : s * (1 + y / 30) < s := by nlinarith
      unfold MIN_SCALING at hsc
      split_ifs with h1 h2 <;> intro hEq <;> linarith
    · have hv : s < s * (1 + y / 30) := by nlinarith
      unfold MAX_SCALING at hsc
      split_ifs with h1 h2 <;> intro hEq <;> linarith
  have hsne : s ≠ 0 := ne_of_gt hs
  have hs'ne : newScalingOf y s ≠ 0 := ne_of_gt hs'
  have hds : newScalingOf y s - s ≠ 0 := sub_ne_zero.mpr hne
  refine ⟨by unfold handle_scrolling; rw [if_pos hguard]; rfl, hne, ?_⟩
  have hpx : p.x = u.x + sz.w / 2 := by linarith
  have hpy : p.y = u.y + sz.h / 2 := by linarith
  constructor
  · intro hEq
    have hx := congrArg Vec2.x hEq
    have hy' := congrArg Vec2.y hEq
    simp only [project, visibleRegionOrigin, newTranslationOf] at hx hy'
    have keyx : u.x * (newScalingOf y s - s) ^ 2 / (s * s * newScalingOf y s) = 0 := by
      have key : (p.x / newScalingOf y s +
            (-(t.x - u.x * (newScalingOf y s - s) / (s * s)) -
              sz.w / newScalingOf y s / 2)) -
          (p.x / s + (-t.x - sz.w / s / 2)) =
            u.x * (newScalingOf y s - s) ^ 2 / (s * s * newScalingOf y s) := by
        rw [hpx]; field_simp; ring
      rw [← key, hx]; ring
    have keyy : u.y * (newScalingOf y s - s) ^ 2 / (s * s * newScalingOf y s) = 0 := by
      have key : (p.y / newScalingOf y s +
            (-(t.y - u.y * (newScalingOf y s - s) / (s * s)) -
              sz.h / newScalingOf y s / 2)) -
          (p.y / s + (-t.y - sz.h / s / 2)) =
            u.y * (newScalingOf y s - s) ^ 2 / (s * s * newScalingOf y s) := by
        rw [hpy]; field_simp; ring
      rw [← key, hy']; ring
    have hux0 : u.x = 0 := by
      rcases div_eq_zero_iff.mp keyx with h | h
      · rcases mul_eq_zero.mp h with h' | h'
        · exact h'
        · exact absurd (pow_eq_zero_iff two_ne_zero |>.mp h') hds
      · exact absurd h (by positivity)
    have huy0 : u.y = 0 := by
      rcases div_eq_zero_iff.mp keyy with h | h
      · rcases mul_eq_zero.mp h with h' | h'
        · exact h'
        · exact absurd (pow_eq_zero_iff two_ne_zero |>.mp h') hds
      · exact absurd h (by positivity)
    cases u
    simp_all
  · intro h0
    have hux0 : u.x = 0 := by rw [h0]
    have huy0 : u.y = 0 := by rw [h0]
    simp only [project, visibleRegionOrigin, newTranslationOf, Vec2.mk.injEq]
    rw [hpx, hpy, hux0, huy0]
    constructor <;> (field_simp; ring)

/-- Witness for `zoom_world_point_invariant_iff_center`: scroll Δy = +30
at scale 1 with pan (3,4) and the cursor at the centre of a 200×100
canvas. -/
theorem zoom_world_point_invariant_witness :
    handle_scrolling 30 1 ⟨3, 4⟩ (some ⟨0, 0⟩) =
      some (newScalingOf 30 1, some (newTranslationOf 30 1 ⟨3, 4⟩ ⟨0, 0⟩)) ∧
    newScalingOf 30 1 ≠ 1 ∧
    (project (newScalingOf 30 1) (newTranslationOf 30 1 ⟨3, 4⟩ ⟨0, 0⟩)
        ⟨200, 100⟩ ⟨100, 50⟩ = project 1 ⟨3, 4⟩ ⟨200, 100⟩ ⟨100, 50⟩ ↔
      (⟨0, 0⟩ : Vec2) = ⟨0, 0⟩) :=
  zoom_world_point_invariant_iff_center 30 1 ⟨3, 4⟩ ⟨0, 0⟩ ⟨200, 100⟩ ⟨100, 50⟩
    (by norm_num)
    (Or.inr ⟨by norm_num, by norm_num [MAX_SCALING]⟩)
    (by norm_num) (by norm_num)

/-- C1: for a molecule whose bond-adjacency graph is connected,
`delete_atom` (present atom id) and `delete_bond` (present bond id)
partition the surviving atoms: every pre-deletion atom, minus the deleted
atom if any, appears in exactly one of the home molecule and the returned
detached molecules; the detached molecules' atom-id sets are pairwise
disjoint, and no atom is duplicated or lost. -/
theorem delete_ops_partition_atoms (m : Molecule) (aid : AtomId) (bid : BondId)
    (a : Atom) (b : Bond)
    (hWF : m.WF) (hconn : m.Connected)
    (hla : lookupKV aid m.atoms = some a)
    (hlb : lookupKV bid m.bonds = some b) :
    (∃ home frags, m.delete_atom aid = .ok (home, frags) ∧
      (∀ x, (x ∈ home.atoms.map Prod.fst ∨ ∃ f ∈ frags, x ∈ f.atoms.map Prod.fst) ↔
        (x ∈ m.atoms.map Prod.fst ∧ x ≠ aid)) ∧
      (∀ f ∈ frags, ∀ x ∈ f.atoms.map Prod.fst, x ∉ home.atoms.map Prod.fst) ∧
      List.Pairwise
        (fun f g => ∀ x ∈ f.atoms.map Prod.fst, x ∉ g.atoms.map Prod.fst) frags ∧
      (home.atoms.map Prod.fst).Nodup ∧
      (∀ f ∈ frags, (f.atoms.map Prod.fst).Nodup)) ∧
    (∃ home frags, m.delete_bond bid = .ok (home, frags) ∧
      (∀ x, (x ∈ home.atoms.map Prod.fst ∨ ∃ f ∈ frags, x ∈ f.atoms.map Prod.fst) ↔
        x ∈ m.atoms.map Prod.fst) ∧
      (∀ f ∈ frags, ∀ x ∈ f.atoms.map Prod.fst, x ∉ home.atoms.map Prod.fst) ∧
      List.Pairwise
        (fun f g => ∀ x ∈ f.atoms.map Prod.fst, x ∉ g.atoms.map Prod.fst) frags ∧
      (home.atoms.map Prod.fst).Nodup ∧
      (∀ f ∈ frags, (f.atoms.map Prod.fst).Nodup)) := by
  constructor
  · obtain ⟨home, frags, h1, h2, h3, h4, h5, h6, _⟩ := delete_atom_spec m aid a hWF hla
    exact ⟨home, frags, h1, h2, h3, h4, h5, h6⟩
  · obtain ⟨home, frags, h1, h2, h3, h4, h5, h6, _, _⟩ := delete_bond_spec m bid b hWF hlb
    exact ⟨home, frags, h1, h2, h3, h4, h5, h6⟩

/-- Witness for `delete_ops_partition_atoms` on the concrete two-atom
molecule `mC1` (delete atom 0; delete bond 5). -/
theorem delete_ops_partition_atoms_witness :
    mC1.WF ∧ mC1.Connected ∧
    ((∃ home frags, mC1.delete_atom 0 = .ok (home, frags) ∧
      (∀ x, (x ∈ home.atoms.map Prod.fst ∨ ∃ f ∈ frags, x ∈ f.atoms.map Prod.fst) ↔
        (x ∈ mC1.atoms.map Prod.fst ∧ x ≠ 0)) ∧
      (∀ f ∈ frags, ∀ x ∈ f.atoms.map Prod.fst, x ∉ home.atoms.map Prod.fst) ∧
      List.Pairwise
        (fun f g => ∀ x ∈ f.atoms.map Prod.fst, x ∉ g.atoms.map Prod.fst) frags ∧
      (home.atoms.map Prod.fst).Nodup ∧
      (∀ f ∈ frags, (f.atoms.map Prod.fst).Nodup)) ∧
    (∃ home frags, mC1.delete_bond 5 = .ok (home, frags) ∧
      (∀ x, (x ∈ home.atoms.map Prod.fst ∨ ∃ f ∈ frags, x ∈ f.atoms.map Prod.fst) ↔
        x ∈ mC1.atoms.map Prod.fst) ∧
      (∀ f ∈ frags, ∀ x ∈ f.atoms.map Prod.fst, x ∉ home.atoms.map Prod.fst) ∧
      List.Pairwise
        (fun f g => ∀ x ∈ f.atoms.map Prod.fst, x ∉ g.atoms.map Prod.fst) frags ∧
      (home.atoms.map Prod.fst).Nodup ∧
      (∀ f ∈ frags, (f.atoms.map Prod.fst).Nodup))) := by
  have hWF : mC1.WF := by
    refine ⟨by decide, by decide, ?_⟩
    intro p hp
    rcases List.mem_singleton.mp hp with rfl
    exact ⟨by decide, by decide⟩
  have h01 : ReachableIn mC1.bonds 0 1 :=
    Relation.ReflTransGen.single
      (show (1 : AtomId) ∈ neighborsOf mC1.bonds 0 by decide)
  have h10 : ReachableIn mC1.bonds 1 0 :=
    Relation.ReflTransGen.single
      (show (0 : AtomId) ∈ neighborsOf mC1.bonds 1 by decide)
  have hconn : mC1.Connected := by
    intro x hx y hy
    have hx' : x = 0 ∨ x = 1 := by
      simpa [mC1] using hx
    have hy' : y = 0 ∨ y = 1 := by
      simpa [mC1] using hy
    rcases hx' with rfl | rfl <;> rcases hy' with rfl | rfl
    · exact Relation.ReflTransGen.refl
    · exact h01
    · exact h10
    · exact Relation.ReflTransGen.refl
  exact ⟨hWF, hconn,
    delete_ops_partition_atoms mC1 0 5
      { label := "C", position := ⟨0, 0⟩, direction := .Right }
      ⟨0, 1, .Normal 1⟩ hWF hconn rfl rfl⟩

/-- C5: when the two endpoints of a deleted bond remain connected through
the remaining bonds (the bond lay on a cycle), `delete_bond` returns zero
detached molecules and the home molecule's atom set and bond set are
unchanged except for the removed bond itself. -/
theorem delete_cycle_bond_no_detach (m : Molecule) (bid : BondId) (b : Bond)
    (hWF : m.WF) (hlb : lookupKV bid m.bonds = some b)
    (hcyc : ReachableIn (eraseKey bid m.bonds) b.start b.end') :
    ∃ home, m.delete_bond bid = .ok (home, []) ∧
      home.atoms.map Prod.fst = m.atoms.map Prod.fst ∧
      home.bonds = eraseKey bid m.bonds := by
  set m₁ : Molecule := { m with bonds := eraseKey bid m.bonds } with hm₁def
  have hm₁bonds : ∀ p ∈ m₁.bonds, p ∈ m.bonds := by
    intro p hp
    rw [hm₁def] at hp
    exact List.mem_of_mem_filter hp
  have hend₁ : ∀ x ∈ bondEndpointAtoms m₁.bonds, x ∈ m₁.atoms.map Prod.fst := by
    intro x hx
    simp only [bondEndpointAtoms, List.mem_flatMap] at hx
    obtain ⟨p, hp, hxp⟩ := hx
    exact wf_endpoint_mem hWF (by
      simp only [bondEndpointAtoms, List.mem_flatMap]
      exact ⟨p, hm₁bonds p hp, hxp⟩)
  have hidm : ∀ c ∈ b.atomIds, c ∈ m₁.atoms.map Prod.fst := by
    intro c hc
    have hbm : (bid, b) ∈ m.bonds := lookupKV_eq_some_mem hlb
    obtain ⟨h1, h2⟩ := hWF.2.2 (bid, b) hbm
    simp only [Bond.atomIds, List.mem_cons, List.not_mem_nil, or_false] at hc
    rcases hc with rfl | rfl
    · exact (lookupKV_isSome_iff _ _).mp h1
    · exact (lookupKV_isSome_iff _ _).mp h2
  obtain ⟨m₂, hud, hkeys₂, hbonds₂, _⟩ := updateDirections_ok b.atomIds m₁ hend₁ hidm
  have hbonds₂' : m₂.bonds = eraseKey bid m.bonds := hbonds₂
  have hreach : ReachableIn m₂.bonds b.start b.end' := by
    rw [hbonds₂']
    exact hcyc
  set w1 := m₂.get_connected b.start with hw1def
  set w2 := m₂.get_connected b.end' with hw2def
  have he_w1 : b.end' ∈ w1 := get_connected_complete m₂ b.start b.end' hreach
  have hscan1 : (scanWalk w1 []).1 = true :=
    scanWalk_complete w1 [] (by simp) (get_connected_nodup m₂ b.start)
  have he_seen : b.end' ∈ (scanWalk w1 []).2 :=
    scanWalk_true_mem w1 [] hscan1 _ he_w1
  have he_w2 : b.end' ∈ w2 := get_connected_root m₂ b.end'
  have hw1ne : w1.isEmpty = false := by
    rcases hempty : w1 with _ | _
    · rw [hempty] at he_w1
      simp at he_w1
    · rfl
  rcases hsw1 : scanWalk w1 [] with ⟨f1, s1⟩
  have hf1 : f1 = true := by rw [hsw1] at hscan1; exact hscan1
  subst hf1
  have he_s1 : b.end' ∈ s1 := by rw [hsw1] at he_seen; exact he_seen
  have hscan2 : (scanWalk w2 s1).1 = false :=
    scanWalk_false_of_mem w2 s1 b.end' he_w2 he_s1
  rcases hsw2 : scanWalk w2 s1 with ⟨f2, s2⟩
  have hf2 : f2 = false := by rw [hsw2] at hscan2; exact hscan2
  subst hf2
  have hcu : collectUnique [w1, w2] [] [] = [w1] := by
    rw [show collectUnique [w1, w2] [] [] =
        collectUnique [w2] s1 ([] ++ if w1.isEmpty then [] else [w1]) by
      simp only [collectUnique, hsw1]]
    rw [hw1ne]
    rw [show collectUnique [w2] s1 ([] ++ if false = true then [] else [w1]) =
        collectUnique [] s2 ([] ++ if false = true then [] else [w1]) by
      simp only [collectUnique, hsw2]]
    simp [collectUnique]
  have hsplit : m₂.split_fragments b.atomIds = .ok (m₂, []) := by
    simp only [Molecule.split_fragments, Bond.atomIds, List.map_cons, List.map_nil]
    rw [← hw1def, ← hw2def, hcu]
    simp
  refine ⟨m₂, ?_, ?_, hbonds₂'⟩
  · simp only [Molecule.delete_bond, hlb]
    rw [← hm₁def, hud]
    exact hsplit
  · rw [hkeys₂]

/-- Witness for `delete_cycle_bond_no_detach`: deleting bond 10 of the
triangle `mC5`, whose endpoints 0 and 1 stay connected through atom 2. -/
theorem delete_cycle_bond_no_detach_witness :
    mC5.WF ∧ lookupKV 10 mC5.bonds = some ⟨0, 1, .Normal 1⟩ ∧
    ReachableIn (eraseKey 10 mC5.bonds) 0 1 ∧
    (∃ home, mC5.delete_bond 10 = .ok (home, []) ∧
      home.atoms.map Prod.fst = mC5.atoms.map Prod.fst ∧
      home.bonds = eraseKey 10 mC5.bonds) := by
  have hWF : mC5.WF := by
    refine ⟨by decide, by decide, ?_⟩
    intro p hp
    rcases List.mem_cons.mp hp with rfl | hp'
    · exact ⟨by decide, by decide⟩
    rcases List.mem_cons.mp hp' with rfl | hp''
    · exact ⟨by decide, by decide⟩
    rcases List.mem_singleton.mp hp'' with rfl
    exact ⟨by decide, by decide⟩
  have hcyc : ReachableIn (eraseKey 10 mC5.bonds) 0 1 :=
    Relation.ReflTransGen.tail
      (Relation.ReflTransGen.single
        (show (2 : AtomId) ∈ neighborsOf (eraseKey 10 mC5.bonds) 0 by decide))
      (show (1 : AtomId) ∈ neighborsOf (eraseKey 10 mC5.bonds) 2 by decide)
  exact ⟨hWF, rfl, hcyc,
    delete_cycle_bond_no_detach mC5 10 ⟨0, 1, .Normal 1⟩ hWF rfl hcyc⟩

/-- C6: no successful document-level operation leaves an empty molecule in
the map.  `remove_molecule` and `add_molecule_with_atom` preserve the
invariant unconditionally; a successful `State::delete_atom` preserves it
(an emptied home molecule is removed in the same operation, and every
detached fragment is non-empty); a successful `State::delete_bond`
preserves it for well-formed stored molecules.  In particular, deleting
the only atom of a stored single-atom molecule succeeds and removes that
molecule from the document. -/
theorem doc_no_empty_molecules :
    (∀ (s : DocState) (mid : MoleculeId), s.NoEmpty →
      (s.remove_molecule mid).1.NoEmpty) ∧
    (∀ (s : DocState) (mid : MoleculeId) (aid : AtomId) (label : String)
      (position : Vec2), s.NoEmpty →
      (s.add_molecule_with_atom mid aid label position).1.NoEmpty) ∧
    (∀ (s : DocState) (mid : MoleculeId) (aid : AtomId)
      (fresh : ℕ → MoleculeId) (s' : DocState), s.NoEmpty →
      s.delete_atom mid aid fresh = (s', Except.ok ()) → s'.NoEmpty) ∧
    (∀ (s : DocState) (mid : MoleculeId) (bid : BondId)
      (fresh : ℕ → MoleculeId) (s' : DocState), s.NoEmpty →
      (∀ p ∈ s.molecules, p.2.WF) →
      s.delete_bond mid bid fresh = (s', Except.ok ()) → s'.NoEmpty) ∧
    (∀ (s : DocState) (mid : MoleculeId) (aid : AtomId) (a : Atom)
      (mol : Molecule) (fresh : ℕ → MoleculeId),
      lookupKV mid s.molecules = some mol → mol.atoms = [(aid, a)] → mol.WF →
      ∃ s', s.delete_atom mid aid fresh = (s', Except.ok ()) ∧
        lookupKV mid s'.molecules = none) :=
  ⟨remove_molecule_noempty,
   add_molecule_noempty,
   fun s mid aid fresh s' hs h => delete_atom_noempty s mid aid fresh s' hs h,
   fun s mid bid fresh s' hs hwf h => delete_bond_noempty s mid bid fresh s' hs hwf h,
   fun s mid aid a mol fresh hmol hatoms hWF =>
     delete_atom_single s mid aid a mol fresh hmol hatoms hWF⟩

/-- Witness for `doc_no_empty_molecules`: deleting atom 7 of the
single-atom molecule stored under id 5 in `dC6` succeeds and removes
molecule 5 from the document. -/
theorem doc_no_empty_molecules_witness :
    ∃ s', dC6.delete_atom 5 7 (fun i => 100 + i) = (s', Except.ok ()) ∧
      lookupKV 5 s'.molecules = none :=
  doc_no_empty_molecules.2.2.2.2 dC6 5 7
    { label := "C", position := ⟨0, 0⟩, direction := .Right }
    (Molecule.new ⟨0, 0⟩ 7 "C") (fun i => 100 + i) rfl rfl
    (by simp [Molecule.WF, Molecule.new])

/-- C10 (implicit): every document-level deletion — `State::remove_molecule`,
`State::delete_atom` and `State::delete_bond` — leaves the multi-selection
empty, for every input state (so also when the deleted entity was not
selected) and regardless of whether the operation succeeds or errors. -/
theorem deletions_clear_selection (s : DocState) (mid : MoleculeId)
    (aid : AtomId) (bid : BondId) (fresh : ℕ → MoleculeId) :
    (s.remove_molecule mid).1.selection = [] ∧
    (s.delete_atom mid aid fresh).1.selection = [] ∧
    (s.delete_bond mid bid fresh).1.selection = [] :=
  ⟨remove_molecule_sel s mid, delete_atom_sel s mid aid fresh,
   delete_bond_sel s mid bid fresh⟩

/-- C9 counterexample: bond id 99 is absent from `mC1`, yet
`change_bond_type` and `flip_bond` return the molecule unchanged — neither
operation can report an error, their signatures carry no `Result`. -/
theorem bond_mutations_missing_counterexample :
    lookupKV 99 mC1.bonds = none ∧
    mC1.change_bond_type 99 .Wedge = mC1 ∧ mC1.flip_bond 99 = mC1 :=
  ⟨rfl, rfl, rfl⟩

/-- C9 (amended): `change_bond_type` and `flip_bond` return plain
molecules, not results, and on a bond id that is absent from the bond map
they silently return the molecule unchanged instead of failing with a
`BondMissing` error. -/
theorem bond_mutations_silent_on_missing (m : Molecule) (bid : BondId)
    (t : BondType) (h : lookupKV bid m.bonds = none) :
    m.change_bond_type bid t = m ∧ m.flip_bond bid = m := by
  have hk : ∀ p ∈ m.bonds, ¬ p.1 = bid := by
    intro p hp hpe
    exact (lookupKV_eq_none_iff bid m.bonds).mp h
      (hpe ▸ List.mem_map_of_mem Prod.fst hp)
  constructor
  · simp only [Molecule.change_bond_type]
    have hmap : m.bonds.map
        (fun p => if p.1 = bid then (p.1, p.2.change_type t) else p) = m.bonds := by
      conv_rhs => rw [← List.map_id m.bonds]
      exact List.map_congr_left (fun p hp => by rw [if_neg (hk p hp)]; rfl)
    rw [hmap]
  · simp only [Molecule.flip_bond]
    have hmap : m.bonds.map
        (fun p => if p.1 = bid then (p.1, p.2.flip) else p) = m.bonds := by
      conv_rhs => rw [← List.map_id m.bonds]
      exact List.map_congr_left (fun p hp => by rw [if_neg (hk p hp)]; rfl)
    rw [hmap]

/-- Witness for `bond_mutations_silent_on_missing` at the absent bond id 99
of `mC1`. -/
theorem bond_mutations_silent_on_missing_witness :
    lookupKV 99 mC1.bonds = none ∧
    (mC1.change_bond_type 99 .Wedge = mC1 ∧ mC1.flip_bond 99 = mC1) :=
  ⟨rfl, bond_mutations_silent_on_missing mC1 99 .Wedge rfl⟩

theorem div_sqrt_gt_tenth_iff (x y : ℝ) :
    x / Real.sqrt (x ^ 2 + y ^ 2) > 1 / 10 ↔
      (0 < x ∧ x ^ 2 + y ^ 2 < 100 * x ^ 2) := by
  constructor
  · intro h
    have hs := Real.sqrt_nonneg (x ^ 2 + y ^ 2)
    rcases eq_or_lt_of_le hs with hs0 | hs0
    · rw [← hs0] at h
      simp at h
      linarith
    · have h' : 1 / 10 * Real.sqrt (x ^ 2 + y ^ 2) < x := (lt_div_iff hs0).mp h
      have hx : 0 < x := lt_of_le_of_lt (by positivity) h'
      have h10 : Real.sqrt (x ^ 2 + y ^ 2) < 10 * x := by linarith
      have hsq : Real.sqrt (x ^ 2 + y ^ 2) ^ 2 = x ^ 2 + y ^ 2 :=
        Real.sq_sqrt (by positivity)
      have hss : Real.sqrt (x ^ 2 + y ^ 2) * Real.sqrt (x ^ 2 + y ^ 2)
          < (10 * x) * (10 * x) := mul_lt_mul'' h10 h10 hs hs
      refine ⟨hx, ?_⟩
      nlinarith [hsq, hss]
  · rintro ⟨hx, hlt⟩
    have hx2 : (0 : ℝ) < x ^ 2 := pow_pos hx 2
    have hpos : (0 : ℝ) < x ^ 2 + y ^ 2 := by nlinarith [sq_nonneg y]
    have hs0 : 0 < Real.sqrt (x ^ 2 + y ^ 2) := Real.sqrt_pos.mpr hpos
    have hsq : Real.sqrt (x ^ 2 + y ^ 2) ^ 2 = x ^ 2 + y ^ 2 :=
      Real.sq_sqrt hpos.le
    have h10 : Real.sqrt (x ^ 2 + y ^ 2) < 10 * x := by
      by_contra hcon
      push_neg at hcon
      have hmul : (10 * x) * (10 * x)
          ≤ Real.sqrt (x ^ 2 + y ^ 2) * Real.sqrt (x ^ 2 + y ^ 2) :=
        mul_le_mul hcon hcon (by positivity) hs0.le
      nlinarith [hsq]
    rw [gt_iff_lt, lt_div_iff hs0]
    linarith

theorem div_sqrt_lt_neg_tenth_iff (x y : ℝ) :
    x / Real.sqrt (x ^ 2 + y ^ 2) < -(1 / 10) ↔
      (x < 0 ∧ x ^ 2 + y ^ 2 < 100 * x ^ 2) := by
  constructor
  · intro hlt
    have h1 : -x / Real.sqrt (x ^ 2 + y ^ 2) > 1 / 10 := by
      rw [neg_div]
      linarith
    have h2 := (div_sqrt_gt_tenth_iff (-x) y).mp (by rw [neg_sq]; exact h1)
    rw [neg_sq] at h2
    exact ⟨by linarith [h2.1], h2.2⟩
  · rintro ⟨hx, hlt⟩
    have h2 := (div_sqrt_gt_tenth_iff (-x) y).mpr
      (by rw [neg_sq]; exact ⟨by linarith, hlt⟩)
    rw [neg_sq, neg_div] at h2
    linarith

theorem blocksRight_iff_spec (v : Vec2) :
    blocksRight v = true ↔ unitX v > 1 / 10 := by
  rw [blocksRight, decide_eq_true_eq, unitX, gt_iff_lt,
    show ((1 : ℝ) / 10 < (v.x : ℝ) / Real.sqrt ((v.x : ℝ) ^ 2 + (v.y : ℝ) ^ 2)) ↔
      ((v.x : ℝ) / Real.sqrt ((v.x : ℝ) ^ 2 + (v.y : ℝ) ^ 2) > 1 / 10) from Iff.rfl,
    div_sqrt_gt_tenth_iff]
  constructor
  · rintro ⟨h1, h2⟩
    exact ⟨by exact_mod_cast h1, by exact_mod_cast h2⟩
  · rintro ⟨h1, h2⟩
    exact ⟨by exact_mod_cast h1, by exact_mod_cast h2⟩

theorem blocksLeft_iff_spec (v : Vec2) :
    blocksLeft v = true ↔ unitX v < -(1 / 10) := by
  rw [blocksLeft, decide_eq_true_eq, unitX, div_sqrt_lt_neg_tenth_iff]
  constructor
  · rintro ⟨h1, h2⟩
    exact ⟨by exact_mod_cast h1, by exact_mod_cast h2⟩
  · rintro ⟨h1, h2⟩
    exact ⟨by exact_mod_cast h1, by exact_mod_cast h2⟩

theorem blocksDown_iff_spec (v : Vec2) :
    blocksDown v = true ↔ unitY v > 1 / 10 := by
  rw [blocksDown, decide_eq_true_eq, unitY, gt_iff_lt,
    show ((v.x : ℝ) ^ 2 + (v.y : ℝ) ^ 2) = ((v.y : ℝ) ^ 2 + (v.x : ℝ) ^ 2) from
      add_comm _ _,
    show ((1 : ℝ) / 10 < (v.y : ℝ) / Real.sqrt ((v.y : ℝ) ^ 2 + (v.x : ℝ) ^ 2)) ↔
      ((v.y : ℝ) / Real.sqrt ((v.y : ℝ) ^ 2 + (v.x : ℝ) ^ 2) > 1 / 10) from Iff.rfl,
    div_sqrt_gt_tenth_iff]
  constructor
  · rintro ⟨h1, h2⟩
    refine ⟨by exact_mod_cast h1, ?_⟩
    have h2' : ((v.x : ℝ) ^ 2 + (v.y : ℝ) ^ 2 < 100 * (v.y : ℝ) ^ 2) := by
      exact_mod_cast h2
    linarith
  · rintro ⟨h1, h2⟩
    refine ⟨by exact_mod_cast h1, ?_⟩
    have h2' : ((v.x : ℝ) ^ 2 + (v.y : ℝ) ^ 2 < 100 * (v.y : ℝ) ^ 2) := by
      linarith
    exact_mod_cast h2'

theorem blocksUp_iff_spec (v : Vec2) :
    blocksUp v = true ↔ unitY v < -(1 / 10) := by
  rw [blocksUp, decide_eq_true_eq, unitY,
    show ((v.x : ℝ) ^ 2 + (v.y : ℝ) ^ 2) = ((v.y : ℝ) ^ 2 + (v.x : ℝ) ^ 2) from
      add_comm _ _,
    div_sqrt_lt_neg_tenth_iff]
  constructor
  · rintro ⟨h1, h2⟩
    refine ⟨by exact_mod_cast h1, ?_⟩
    have h2' : ((v.x : ℝ) ^ 2 + (v.y : ℝ) ^ 2 < 100 * (v.y : ℝ) ^ 2) := by
      exact_mod_cast h2
    linarith
  · rintro ⟨h1, h2⟩
    refine ⟨by exact_mod_cast h1, ?_⟩
    have h2' : ((v.x : ℝ) ^ 2 + (v.y : ℝ) ^ 2 < 100 * (v.y : ℝ) ^ 2) := by
      linarith
    exact_mod_cast h2'

theorem any_blocksRight_iff (vs : List Vec2) :
    vs.any blocksRight = true ↔ SpecBlockedRight vs := by
  rw [List.any_eq_true]
  constructor
  · rintro ⟨v, hv, hb⟩
    exact ⟨v, hv, (blocksRight_iff_spec v).mp hb⟩
  · rintro ⟨v, hv, hb⟩
    exact ⟨v, hv, (blocksRight_iff_spec v).mpr hb⟩

theorem any_blocksLeft_iff (vs : List Vec2) :
    vs.any blocksLeft = true ↔ SpecBlockedLeft vs := by
  rw [List.any_eq_true]
  constructor
  · rintro ⟨v, hv, hb⟩
    exact ⟨v, hv, (blocksLeft_iff_spec v).mp hb⟩
  · rintro ⟨v, hv, hb⟩
    exact ⟨v, hv, (blocksLeft_iff_spec v).mpr hb⟩

theorem any_blocksDown_iff (vs : List Vec2) :
    vs.any blocksDown = true ↔ SpecBlockedDown vs := by
  rw [List.any_eq_true]
  constructor
  · rintro ⟨v, hv, hb⟩
    exact ⟨v, hv, (blocksDown_iff_spec v).mp hb⟩
  · rintro ⟨v, hv, hb⟩
    exact ⟨v, hv, (blocksDown_iff_spec v).mpr hb⟩

theorem any_blocksUp_iff (vs : List Vec2) :
    vs.any blocksUp = true ↔ SpecBlockedUp vs := by
  rw [List.any_eq_true]
  constructor
  · rintro ⟨v, hv, hb⟩
    exact ⟨v, hv, (blocksUp_iff_spec v).mp hb⟩
  · rintro ⟨v, hv, hb⟩
    exact ⟨v, hv, (blocksUp_iff_spec v).mpr hb⟩

/-- C8: `update_atom_label_direction` assigns an atom the first direction
in the preference order Right, Left, Up, Down that is not blocked — where,
over the sqrt-normalised unit vectors towards the directly bonded
neighbours, a direction is blocked when some unit vector's component along
that axis exceeds 0.1 in magnitude in the corresponding sign
(`SpecBlockedRight/Left/Up/Down`) — and assigns Right when all four are
blocked.  The first conjunct settles the cascade against the
specification-side predicates; the second shows the operation stores
exactly `labelDirection` of the neighbour difference vectors on the
atom. -/
theorem update_label_first_unblocked :
    (∀ vs : List Vec2,
      (¬ SpecBlockedRight vs → labelDirection vs = .Right) ∧
      (SpecBlockedRight vs → ¬ SpecBlockedLeft vs → labelDirection vs = .Left) ∧
      (SpecBlockedRight vs → SpecBlockedLeft vs → ¬ SpecBlockedUp vs →
        labelDirection vs = .Up) ∧
      (SpecBlockedRight vs → SpecBlockedLeft vs → SpecBlockedUp vs →
        ¬ SpecBlockedDown vs → labelDirection vs = .Down) ∧
      (SpecBlockedRight vs → SpecBlockedLeft vs → SpecBlockedUp vs →
        SpecBlockedDown vs → labelDirection vs = .Right)) ∧
    (∀ (m : Molecule) (aid : AtomId) (a : Atom) (connected : List Atom),
      lookupKV aid m.atoms = some a →
      m.lookupAtoms (m.get_directly_connected aid) = .ok connected →
      ∃ m', m.update_atom_label_direction aid = .ok m' ∧
        lookupKV aid m'.atoms = some
          { a with
              direction := labelDirection (connected.map (fun c =>
                (⟨c.position.x - a.position.x,
                  c.position.y - a.position.y⟩ : Vec2))) }) := by
  constructor
  · intro vs
    refine ⟨?_, ?_, ?_, ?_, ?_⟩
    · intro hnr
      have t1 : vs.any blocksRight = false := by
        cases hb : vs.any blocksRight
        · rfl
        · exact absurd ((any_blocksRight_iff vs).mp hb) hnr
      simp [labelDirection, t1]
    · intro hr hnl
      have t1 : vs.any blocksRight = true := (any_blocksRight_iff vs).mpr hr
      have t2 : vs.any blocksLeft = false := by
        cases hb : vs.any blocksLeft
        · rfl
        · exact absurd ((any_blocksLeft_iff vs).mp hb) hnl
      simp [labelDirection, t1, t2]
    · intro hr hl hnu
      have t1 : vs.any blocksRight = true := (any_blocksRight_iff vs).mpr hr
      have t2 : vs.any blocksLeft = true := (any_blocksLeft_iff vs).mpr hl
      have t3 : vs.any blocksUp = false := by
        cases hb : vs.any blocksUp
        · rfl
        · exact absurd ((any_blocksUp_iff vs).mp hb) hnu
      simp [labelDirection, t1, t2, t3]
    · intro hr hl hu hnd
      have t1 : vs.any blocksRight = true := (any_blocksRight_iff vs).mpr hr
      have t2 : vs.any blocksLeft = true := (any_blocksLeft_iff vs).mpr hl
      have t3 : vs.any blocksUp = true := (any_blocksUp_iff vs).mpr hu
      have t4 : vs.any blocksDown = false := by
        cases hb : vs.any blocksDown
        · rfl
        · exact absurd ((any_blocksDown_iff vs).mp hb) hnd
      simp [labelDirection, t1, t2, t3, t4]
    · intro hr hl hu hd
      have t1 : vs.any blocksRight = true := (any_blocksRight_iff vs).mpr hr
      have t2 : vs.any blocksLeft = true := (any_blocksLeft_iff vs).mpr hl
      have t3 : vs.any blocksUp = true := (any_blocksUp_iff vs).mpr hu
      have t4 : vs.any blocksDown = true := (any_blocksDown_iff vs).mpr hd
      simp [labelDirection, t1, t2, t3, t4]
      rfl
  · intro m aid a connected hla hconn
    refine ⟨{ m with
                atoms := m.atoms.map (fun p =>
                  if p.1 = aid then
                    (p.1, { p.2 with
                              direction := labelDirection (connected.map (fun c =>
                                (⟨c.position.x - a.position.x,
                                  c.position.y - a.position.y⟩ : Vec2))) })
                  else p) },
      by simp only [Molecule.update_atom_label_direction, hla, hconn], ?_⟩
    exact lookupKV_map_modify aid (fun x =>
      { x with direction := labelDirection (connected.map (fun c =>
          (⟨c.position.x - a.position.x,
            c.position.y - a.position.y⟩ : Vec2))) }) m.atoms a hla

/-- Witness for `update_label_first_unblocked`: the single neighbour
vector (30, 0) blocks only Right, so the cascade yields Left, and running
the operation on atom 0 of `mC1` stores that direction. -/
theorem update_label_first_unblocked_witness :
    (SpecBlockedRight [(⟨30, 0⟩ : Vec2)] ∧ ¬ SpecBlockedLeft [(⟨30, 0⟩ : Vec2)] ∧
      labelDirection [(⟨30, 0⟩ : Vec2)] = .Left) ∧
    ∃ m', mC1.update_atom_label_direction 0 = .ok m' ∧
      lookupKV 0 m'.atoms = some
        { label := "C", position := ⟨0, 0⟩,
            direction := labelDirection [(⟨30 - 0, 0 - 0⟩ : Vec2)] } := by
  have hs : Real.sqrt ((30 : ℝ) ^ 2 + (0 : ℝ) ^ 2) = 30 := by
    rw [show ((30 : ℝ) ^ 2 + (0 : ℝ) ^ 2) = 30 ^ 2 by norm_num,
      Real.sqrt_sq (by norm_num : (0 : ℝ) ≤ 30)]
  have hunit : unitX (⟨30, 0⟩ : Vec2) = 1 := by
    rw [unitX]
    push_cast
    rw [hs]
    norm_num
  have hr : SpecBlockedRight [(⟨30, 0⟩ : Vec2)] :=
    ⟨⟨30, 0⟩, by simp, by rw [hunit]; norm_num⟩
  have hnl : ¬ SpecBlockedLeft [(⟨30, 0⟩ : Vec2)] := by
    rintro ⟨v, hv, hlt⟩
    simp only [List.mem_singleton] at hv
    subst hv
    rw [hunit] at hlt
    norm_num at hlt
  refine ⟨⟨hr, hnl, (update_label_first_unblocked.1 [(⟨30, 0⟩ : Vec2)]).2.1 hr hnl⟩, ?_⟩
  obtain ⟨m', h1, h2⟩ := update_label_first_unblocked.2 mC1 0
    { label := "C", position := ⟨0, 0⟩, direction := .Right }
    [{ label := "O", position := ⟨30, 0⟩, direction := .Right }] rfl rfl
  exact ⟨m', h1, h2⟩

/-- C7 counterexample: the fallback of `Bond::fixed_length` is triggered
by any direction vector of magnitude at most 0.0001, not only by a release
point that coincides with the start: for the non-zero direction
(0, 1/10000) the result is the horizontal fallback (40, 10), which does
not lie in the direction of the release point. -/
theorem fixed_length_near_zero_not_radial :
    ((0 : ℝ), (1 / 10000 : ℝ)) ≠ ((0 : ℝ), (0 : ℝ)) ∧
    fixed_length ((10 : ℝ), (10 : ℝ)) ((0 : ℝ), (1 / 10000 : ℝ)) 30
      = ((40 : ℝ), (10 : ℝ)) := by
  constructor
  · intro h
    have h2 := congrArg Prod.snd h
    norm_num at h2
  · have hmag : Real.sqrt (((0 : ℝ), (1 / 10000 : ℝ)).1 ^ 2
        + ((0 : ℝ), (1 / 10000 : ℝ)).2 ^ 2) = 1 / 10000 := by
      rw [show (((0 : ℝ), (1 / 10000 : ℝ)).1 ^ 2
          + ((0 : ℝ), (1 / 10000 : ℝ)).2 ^ 2) = (1 / 10000 : ℝ) ^ 2 by norm_num,
        Real.sqrt_sq (by norm_num : (0 : ℝ) ≤ 1 / 10000)]
    rw [fixed_length, if_neg (by rw [hmag]; exact lt_irrefl _)]
    norm_num

/-- C7 (amended): when the direction vector's magnitude exceeds 0.0001,
`fixed_length` places the point at `start + dir · (length/‖dir‖)`, which
lies at exactly the requested distance from the start in the direction of
`dir`; when the magnitude is at most 0.0001 — not only when the release
point coincides with the start — it falls back to the horizontal offset
`(length, 0)`. -/
theorem fixed_length_spec (start dir : ℝ × ℝ) (L : ℝ) :
    (0 ≤ L → Real.sqrt (dir.1 ^ 2 + dir.2 ^ 2) > 1 / 10000 →
      fixed_length start dir L
          = (start.1 + dir.1 * (L / Real.sqrt (dir.1 ^ 2 + dir.2 ^ 2)),
             start.2 + dir.2 * (L / Real.sqrt (dir.1 ^ 2 + dir.2 ^ 2))) ∧
        ((fixed_length start dir L).1 - start.1) ^ 2
          + ((fixed_length start dir L).2 - start.2) ^ 2 = L ^ 2) ∧
    (¬ Real.sqrt (dir.1 ^ 2 + dir.2 ^ 2) > 1 / 10000 →
      fixed_length start dir L = (start.1 + L, start.2 + 0)) := by
  constructor
  · intro hL hgt
    have hs0 : 0 < Real.sqrt (dir.1 ^ 2 + dir.2 ^ 2) :=
      lt_trans (by norm_num) hgt
    have hne : Real.sqrt (dir.1 ^ 2 + dir.2 ^ 2) ≠ 0 := ne_of_gt hs0
    have hsq : Real.sqrt (dir.1 ^ 2 + dir.2 ^ 2) ^ 2 = dir.1 ^ 2 + dir.2 ^ 2 :=
      Real.sq_sqrt (by positivity)
    constructor
    · rw [fixed_length, if_pos hgt]
    · rw [fixed_length, if_pos hgt]
      have hD : dir.1 ^ 2 + dir.2 ^ 2 ≠ 0 := by
        intro h0
        apply hne
        have hs2 : Real.sqrt (dir.1 ^ 2 + dir.2 ^ 2) ^ 2 = 0 := by rw [hsq, h0]
        exact (pow_eq_zero_iff (by norm_num : (2 : ℕ) ≠ 0)).mp hs2
      field_simp [hne, hD]
      ring
  · intro hle
    rw [fixed_length, if_neg hle]

/-- Witness for `fixed_length_spec`: start (10, 10), direction (30, 0),
length 30 — the magnitude 30 exceeds the threshold, the placed point is
exactly (40, 10) and its squared distance from the start is 30². -/
theorem fixed_length_spec_witness :
    (0 : ℝ) ≤ 30 ∧
    Real.sqrt (((30 : ℝ), (0 : ℝ)).1 ^ 2 + ((30 : ℝ), (0 : ℝ)).2 ^ 2) > 1 / 10000 ∧
    fixed_length ((10 : ℝ), (10 : ℝ)) ((30 : ℝ), (0 : ℝ)) 30 = ((40 : ℝ), (10 : ℝ)) := by
  have hs : Real.sqrt (((30 : ℝ), (0 : ℝ)).1 ^ 2 + ((30 : ℝ), (0 : ℝ)).2 ^ 2) = 30 := by
    rw [show (((30 : ℝ), (0 : ℝ)).1 ^ 2 + ((30 : ℝ), (0 : ℝ)).2 ^ 2)
        = (30 : ℝ) ^ 2 by norm_num, Real.sqrt_sq (by norm_num : (0 : ℝ) ≤ 30)]
  have hgt : Real.sqrt (((30 : ℝ), (0 : ℝ)).1 ^ 2 + ((30 : ℝ), (0 : ℝ)).2 ^ 2)
      > 1 / 10000 := by
    rw [hs]
    norm_num
  have h := (fixed_length_spec ((10 : ℝ), (10 : ℝ)) ((30 : ℝ), (0 : ℝ)) 30).1
    (by norm_num) hgt
  refine ⟨by norm_num, hgt, ?_⟩
  rw [h.1, hs]
  norm_num

end MolCanvas
